import Mathlib

/-!
Verification of the vibeETL dependency-graph planner (src/depend.py) and the
stage-then-merge extractor (src/extract.py), shallowly embedded in Lean.
String names are compared by Unicode code points, as Python does.
-/

set_option maxHeartbeats 1000000

instance {ε α : Type} [DecidableEq ε] [DecidableEq α] : DecidableEq (Except ε α) := fun x y =>
  match x, y with
  | Except.ok a, Except.ok b =>
    if h : a = b then isTrue (by rw [h]) else isFalse (by intro hc; cases hc; exact h rfl)
  | Except.error e, Except.error f =>
    if h : e = f then isTrue (by rw [h]) else isFalse (by intro hc; cases hc; exact h rfl)
  | Except.ok _, Except.error _ => isFalse (by intro hc; cases hc)
  | Except.error _, Except.ok _ => isFalse (by intro hc; cases hc)

/-- Lexicographic code-point comparison of character lists, the order Python
uses when sorting table-name strings. -/
def lexLeB : List Char → List Char → Bool
  | [], _ => true
  | _ :: _, [] => false
  | a :: as, b :: bs =>
    if a.toNat < b.toNat then true
    else if b.toNat < a.toNat then false
    else lexLeB as bs

/-- Order on strings used by the sorted() calls in depend.py. -/
def strLe (a b : String) : Prop := lexLeB a.data b.data = true

instance : DecidableRel strLe := fun a b => by unfold strLe; infer_instance

/-- Totality of the code-point order, needed for sortedness of sorted() output. -/
def lexLeB_total : ∀ l₁ l₂ : List Char, lexLeB l₁ l₂ = true ∨ lexLeB l₂ l₁ = true := by
  intro l₁ l₂
  induction l₁ generalizing l₂ with
  | nil => left; rfl
  | cons x xs ih =>
    cases l₂ with
    | nil => right; rfl
    | cons y ys =>
      rcases Nat.lt_trichotomy x.toNat y.toNat with h | h | h
      · left; simp [lexLeB, h]
      · rcases ih ys with h2 | h2
        · left; simp [lexLeB, h, h2]
        · right; simp [lexLeB, h.symm, h2]
      · right; simp [lexLeB, h, Nat.lt_asymm h]

/-- Transitivity of the code-point order, needed for sortedness of sorted() output. -/
def lexLeB_trans : ∀ l₁ l₂ l₃ : List Char,
    lexLeB l₁ l₂ = true → lexLeB l₂ l₃ = true → lexLeB l₁ l₃ = true := by
  intro l₁
  induction l₁ with
  | nil => intro _ _ _ _; rfl
  | cons x xs ih =>
    intro l₂ l₃ h12 h23
    cases l₂ with
    | nil => simp [lexLeB] at h12
    | cons y ys =>
      cases l₃ with
      | nil => simp [lexLeB] at h23
      | cons z zs =>
        simp only [lexLeB] at h12 h23 ⊢
        by_cases hxy : x.toNat < y.toNat
        · simp [hxy] at h12
          by_cases hyz : y.toNat < z.toNat
          · simp [show x.toNat < z.toNat from hxy.trans hyz]
          · by_cases hzy : z.toNat < y.toNat
            · simp [hxy, hyz, hzy] at h23
            · have : y.toNat = z.toNat := Nat.le_antisymm (Nat.le_of_not_lt hzy) (Nat.le_of_not_lt hyz)
              simp [show x.toNat < z.toNat from this ▸ hxy]
        · by_cases hyx : y.toNat < x.toNat
          · simp [hxy, hyx] at h12
          · have hxy' : x.toNat = y.toNat := Nat.le_antisymm (Nat.le_of_not_lt hyx) (Nat.le_of_not_lt hxy)
            rw [if_neg hxy, if_neg hyx] at h12
            by_cases hyz : y.toNat < z.toNat
            · simp [show x.toNat < z.toNat from hxy' ▸ hyz]
            · by_cases hzy : z.toNat < y.toNat
              · simp [hyz, hzy] at h23
              · have hyz' : y.toNat = z.toNat :=
                  Nat.le_antisymm (Nat.le_of_not_lt hzy) (Nat.le_of_not_lt hyz)
                have hxz : ¬ x.toNat < z.toNat := by omega
                have hzx : ¬ z.toNat < x.toNat := by omega
                simp only [if_neg hyz, if_neg hzy] at h23
                simp only [if_neg hxz, if_neg hzx]
                exact ih ys zs h12 h23

instance : IsTotal String strLe := ⟨fun a b => lexLeB_total a.data b.data⟩

instance : IsTrans String strLe := ⟨fun a b c => lexLeB_trans a.data b.data c.data⟩

/-- Suffix test on strings, modelling the Python endswith used by resolve. -/
def endsWithS (s pat : String) : Bool :=
  decide (s.data.drop (s.data.length - pat.data.length) = pat.data)

/-- Dot test on strings, modelling the Python membership test of a dot in a name. -/
def containsDot (s : String) : Bool := decide ('.' ∈ s.data)

/-- Contiguous-sublist test on character lists, modelling the Python
substring membership operator. -/
def hasInfixChars : List Char → List Char → Bool
  | l, pat =>
    if decide (l.take pat.length = pat) then true
    else
      match l with
      | [] => false
      | _ :: tl => hasInfixChars tl pat

/-- Table names are schema-qualified strings. -/
abbrev TName := String

/-- The FK dependency graph of DependencyGraph: the edge (child, parent) records
one foreign key from child to parent.  The Python object stores the two mutually
inverse dictionaries parents and children; both are derived views of this edge set. -/
structure Graph where
  edges : List (TName × TName)
deriving DecidableEq

/-- The set parents[c] of DependencyGraph, as a list. -/
def Graph.parentsOf (g : Graph) (c : TName) : List TName :=
  (g.edges.filter (fun e => decide (e.1 = c))).map Prod.snd

/-- The set children[p] of DependencyGraph, as a list. -/
def Graph.childrenOf (g : Graph) (p : TName) : List TName :=
  (g.edges.filter (fun e => decide (e.2 = p))).map Prod.fst

/-- set(self.parents) union set(self.children): every table incident to an edge. -/
def Graph.nodes (g : Graph) : List TName :=
  (g.edges.map Prod.fst ++ g.edges.map Prod.snd).dedup

/-- One FK step from child a to parent b. -/
def stepRel (g : Graph) (a b : TName) : Prop := (a, b) ∈ g.edges

/-- One FK step inside the subset R, for cycles of the induced subgraph. -/
def stepIn (g : Graph) (R : List TName) (a b : TName) : Prop :=
  (a, b) ∈ g.edges ∧ a ∈ R ∧ b ∈ R

/-- Index of the first occurrence of a table in a list, used to state that one
table appears earlier than another in an emitted order. -/
def posIn (a : TName) : List TName → Nat
  | [] => 0
  | b :: l => if b = a then 0 else posIn a l + 1

/-- One entry of inspector.get_foreign_keys. -/
structure FKInfo where
  referred_schema : Option String
  referred_table : String
deriving DecidableEq

/-- One table as seen by the inspector during the build scan. -/
structure TableInfo where
  name : String
  fks : List FKInfo
deriving DecidableEq

/-- One schema as seen by the inspector during the build scan. -/
structure SchemaInfo where
  name : String
  tables : List TableInfo
deriving DecidableEq

/-- The schema catalog that DependencyGraph._build scans. -/
abbrev Catalog := List SchemaInfo

/-- Schema-qualified name, DependencyGraph._qual. -/
def qual (schema table : String) : TName := schema ++ "." ++ table

/-- The default exclude_schemas set of DependencyGraph. -/
def defaultExcludeSchemas : List String := ["pg_catalog", "information_schema"]

/-- exclude_schemas or the default set: a falsy (absent or empty) argument
falls back to the default, as in the Python or-expression. -/
def resolveExclude : Option (List String) → List String
  | none => defaultExcludeSchemas
  | some l => if l = [] then defaultExcludeSchemas else l

/-- The include_schemas guard of _build: truthy include set that omits the schema. -/
def includeBlocks : Option (List String) → String → Bool
  | none, _ => false
  | some l, s => if l = [] then false else decide (s ∉ l)

/-- Record one foreign key of child in the edge set, skipping self references,
as _build does via parents[child].add(parent). -/
def addFK (child : TName) (schema : String) (acc : List (TName × TName)) (fk : FKInfo) :
    List (TName × TName) :=
  let parent := qual (fk.referred_schema.getD schema) fk.referred_table
  if parent = child then acc
  else if (child, parent) ∈ acc then acc
  else acc ++ [(child, parent)]

/-- Record every foreign key of one scanned table. -/
def addTable (schema : String) (acc : List (TName × TName)) (tbl : TableInfo) :
    List (TName × TName) :=
  tbl.fks.foldl (addFK (qual schema tbl.name) schema) acc

/-- Record every table of one schema, honouring the include and exclude filters. -/
def addSchema (includeSchemas : Option (List String)) (excl : List String)
    (acc : List (TName × TName)) (sch : SchemaInfo) : List (TName × TName) :=
  if includeBlocks includeSchemas sch.name then acc
  else if sch.name ∈ excl then acc
  else sch.tables.foldl (addTable sch.name) acc

/-- DependencyGraph._build: scan the catalog and populate the edge set. -/
def buildGraph (cat : Catalog) (includeSchemas excludeSchemas : Option (List String)) : Graph :=
  ⟨cat.foldl (addSchema includeSchemas (resolveExclude excludeSchemas)) []⟩

/-- The qualified names of every table of every scanned, non-excluded schema:
the tables the build loop visits. -/
def discoveredTables (cat : Catalog) (includeSchemas excludeSchemas : Option (List String)) :
    List TName :=
  cat.foldl
    (fun acc sch =>
      if includeBlocks includeSchemas sch.name then acc
      else if sch.name ∈ resolveExclude excludeSchemas then acc
      else acc ++ sch.tables.map (fun t => qual sch.name t.name))
    []

/-- The two KeyError outcomes of DependencyGraph._resolve. -/
inductive ResolveErr
  | notFound (name : String)
  | ambiguous (name : String) (candidates : List TName)
deriving DecidableEq

/-- DependencyGraph._resolve: names holding a dot pass unchanged; bare names are
matched by qualified suffix against every known table. -/
def resolve (g : Graph) (name : String) : Except ResolveErr TName :=
  if containsDot name then Except.ok name
  else
    match g.nodes.filter (fun t => endsWithS t ("." ++ name)) with
    | [] => Except.error (ResolveErr.notFound name)
    | [c] => Except.ok c
    | cs => Except.error (ResolveErr.ambiguous name cs)

/-- Resolve each selected name in order, propagating the first failure, as the
set comprehension in sorted_tables does. -/
def resolveAll (g : Graph) : List String → Except ResolveErr (List TName)
  | [] => Except.ok []
  | n :: ns =>
    match resolve g n with
    | Except.error e => Except.error e
    | Except.ok q =>
      match resolveAll g ns with
      | Except.error e => Except.error e
      | Except.ok rest => Except.ok (q :: rest)

/-- The breadth-first loop of DependencyGraph._closure_up: pop a table, append its
unseen parents to both the queue and the accumulated set. -/
def closureGo (g : Graph) : Nat → List TName → List TName → List TName
  | 0, _, acc => acc
  | _ + 1, [], acc => acc
  | fuel + 1, t :: rest, acc =>
    let newPs := (g.parentsOf t).filter (fun p => decide (p ∉ acc))
    closureGo g fuel (rest ++ newPs) (acc ++ newPs)

/-- DependencyGraph._closure_up with fuel large enough for the loop to drain. -/
def closure_up (g : Graph) (tables : List TName) : List TName :=
  closureGo g (tables.length + g.nodes.length) tables tables

/-- Number of parents of t lying inside the subset R: the initial indegree
computed by _toposort. -/
def cntR (g : Graph) (R : List TName) (t : TName) : Nat :=
  ((g.parentsOf t).filter (fun p => decide (p ∈ R))).length

/-- Number of parents of t lying inside the emitted list E. -/
def cem (g : Graph) (t : TName) (E : List TName) : Nat :=
  ((g.parentsOf t).filter (fun p => decide (p ∈ E))).length

/-- Dictionary lookup in the indeg association list. -/
def alookup : List (TName × Int) → TName → Option Int
  | [], _ => none
  | (k, v) :: tl, t => if k = t then some v else alookup tl t

/-- Dictionary assignment in the indeg association list (existing keys only,
as indeg[child] -= 1 is guarded by child in indeg). -/
def aupdate : List (TName × Int) → TName → Int → List (TName × Int)
  | [], _, _ => []
  | (k, v) :: tl, t, val => if k = t then (k, val) :: tl else (k, v) :: aupdate tl t val

/-- The inner loop of _toposort over the sorted children of the popped node:
decrement each child tracked in indeg and collect those that reach zero,
in iteration order. -/
def processChildren (ind : List (TName × Int)) : List TName → List (TName × Int) × List TName
  | [] => (ind, [])
  | c :: cs =>
    match alookup ind c with
    | none => processChildren ind cs
    | some d =>
      let res := processChildren (aupdate ind c (d - 1)) cs
      if d - 1 = 0 then (res.1, c :: res.2) else res

/-- The indeg dictionary of _toposort: every subset member mapped to its
indegree inside the subset. -/
def kahnIndeg (g : Graph) (R : List TName) : List (TName × Int) :=
  R.map (fun t => (t, (cntR g R t : Int)))

/-- The initial queue of _toposort: the zero-indegree members, sorted. -/
def kahnRoots (g : Graph) (R : List TName) : List TName :=
  (((kahnIndeg g R).filter (fun p => decide (p.2 = 0))).map Prod.fst).insertionSort strLe

/-- The while loop of _toposort: pop the queue head, emit it, then append the
newly zero children of the popped node (scanned in sorted order) to the queue. -/
def kahnLoop (g : Graph) : Nat → List TName → List (TName × Int) → List TName
  | 0, _, _ => []
  | _ + 1, [], _ => []
  | fuel + 1, node :: rest, ind =>
    let cs := (g.childrenOf node).insertionSort strLe
    let pr := processChildren ind cs
    node :: kahnLoop g fuel (rest ++ pr.2) pr.1

/-- The emission order produced by the _toposort loop on subset R. -/
def kahnOrder (g : Graph) (R : List TName) : List TName :=
  kahnLoop g R.length (kahnRoots g R) (kahnIndeg g R)

/-- DependencyGraph._toposort: the Kahn order when complete, otherwise the
ValueError naming the undischarged tables, sorted. -/
def toposort (g : Graph) (R : List TName) : Except (List TName) (List TName) :=
  if (kahnOrder g R).length = R.length then Except.ok (kahnOrder g R)
  else Except.error ((R.filter (fun t => decide (t ∉ kahnOrder g R))).insertionSort strLe)

/-- The failures sorted_tables can surface: a resolve error or an FK cycle. -/
inductive SortErr
  | nameErr (e : ResolveErr)
  | cycle (tables : List TName)
deriving DecidableEq

/-- DependencyGraph.sorted_tables: a falsy selection means the full vertex set;
otherwise resolve each name; then close upward over parents and sort. -/
def sorted_tables (g : Graph) (selected : Option (List String)) : Except SortErr (List TName) :=
  let sel : Except ResolveErr (List TName) :=
    match selected with
    | none => Except.ok g.nodes
    | some [] => Except.ok g.nodes
    | some names => resolveAll g names
  match sel with
  | Except.error e => Except.error (SortErr.nameErr e)
  | Except.ok selList =>
    match toposort g (closure_up g selList.dedup) with
    | Except.error l => Except.error (SortErr.cycle l)
    | Except.ok order => Except.ok order

/-- Tables of R that are eligible for emission after the list acc has been
emitted: not yet emitted, and with no unemitted parent inside R. -/
def eligibleAfter (g : Graph) (R acc : List TName) : List TName :=
  R.filter (fun t =>
    decide (t ∉ acc) &&
    decide (((g.parentsOf t).filter (fun p => decide (p ∈ R) && decide (p ∉ acc))) = []))

/-- Modelled from the spec: the zero-indegree frontier is always processed in
lexicographic order, so at every step the lexicographically smallest eligible
table is emitted next.  This is the reference order the spec describes for
topologicalOrder; depend.py itself uses a FIFO deque. -/
def toposortLexGo (g : Graph) (R : List TName) : Nat → List TName → List TName
  | 0, acc => acc
  | fuel + 1, acc =>
    match (eligibleAfter g R acc).insertionSort strLe with
    | [] => acc
    | m :: _ => toposortLexGo g R fuel (acc ++ [m])

/-- Modelled from the spec: the full lexicographic-frontier emission order. -/
def toposortLex (g : Graph) (R : List TName) : List TName :=
  toposortLexGo g R R.length []

/-! ## extract.py -/

/-- Rows per batch in extract.py. -/
def CHUNK : Nat := 10000

/-- A server-side column default: a Sequence object or a textual expression. -/
inductive SDefault
  | seq
  | txt (arg : String)
deriving DecidableEq

/-- The wipe test of ensure_tables: a Sequence default, or an expression
mentioning nextval. -/
def SDefault.isSeqLike : SDefault → Bool
  | SDefault.seq => true
  | SDefault.txt s => hasInfixChars s.data "nextval".data

/-- One reflected column: name, nullability, Python-side default presence,
server-side default. -/
structure DCol where
  name : String
  nullable : Bool
  hasDefault : Bool
  server_default : Option SDefault
deriving DecidableEq

/-- One reflected table: columns, first primary-key column, foreign keys as
(column, referred target) pairs, and secondary indexes as (name, columns). -/
structure DTable where
  name : String
  columns : List DCol
  pk : String
  fks : List (String × String)
  indexes : List (String × List String)
deriving DecidableEq

/-- required_cols of extract.py: NOT NULL columns with no default of either kind. -/
def required_cols (tbl : DTable) : List String :=
  (tbl.columns.filter (fun c => !c.nullable && !c.hasDefault && c.server_default.isNone)).map
    (fun c => c.name)

/-- The per-column default wipe ensure_tables applies to a freshly copied
destination table: drop Sequence and nextval server defaults, and drop every
Python-side default. -/
def wipeCol (c : DCol) : DCol :=
  { c with
    server_default :=
      match c.server_default with
      | some sd => if sd.isSeqLike then none else some sd
      | none => none,
    hasDefault := false }

/-- The destination half of ensure_tables: reuse an existing table unchanged,
otherwise copy the source table with its defaults wiped. -/
def ensure_tables_dest (dest_meta : List DTable) (src_tbl : DTable) : DTable :=
  match dest_meta.find? (fun t => t.name == src_tbl.name) with
  | some t => t
  | none => { src_tbl with columns := src_tbl.columns.map wipeCol }

/-- The user-selected column list of run_sync: a missing entry or the wildcard
marker means every source column. -/
def userColsSel (sel : Option (List String)) (tbl : DTable) : List String :=
  let user := sel.getD ["*"]
  if user = ["*"] then tbl.columns.map (fun c => c.name) else user

/-- The resolved column list of run_sync: user columns united with the
required columns, then the primary-key column appended when absent. -/
def resolve_cols (sel : Option (List String)) (tbl : DTable) : List String :=
  let cols := (userColsSel sel tbl ++ required_cols tbl).dedup
  if tbl.pk ∈ cols then cols else cols ++ [tbl.pk]

/-- A source row with a numeric primary key. -/
structure NRow where
  pk : Int
  payload : String
deriving DecidableEq

/-- Order on numeric-key rows used by ORDER BY pk. -/
def nrowLe (a b : NRow) : Prop := a.pk ≤ b.pk

instance : DecidableRel nrowLe := fun a b => by unfold nrowLe; infer_instance

/-- One batch of the numeric fast path: rows with key strictly above the
cursor, ordered by key, limited to CHUNK. -/
def selectChunkNumeric (src : List NRow) (cursor : Int) : List NRow :=
  ((src.filter (fun r => decide (cursor < r.pk))).insertionSort nrowLe).take CHUNK

/-- The numeric-path loop of copy_to_staging: stage each batch and advance the
running cursor to the last row of the batch, until a batch is empty. -/
def copyNumericGo (src : List NRow) : Nat → Int → List NRow → List NRow
  | 0, _, staged => staged
  | fuel + 1, cursor, staged =>
    let batch := selectChunkNumeric src cursor
    match batch.getLast? with
    | none => staged
    | some lastRow => copyNumericGo src fuel lastRow.pk (staged ++ batch)

/-- copy_to_staging on a numeric primary key: cursor seeded from the stored
value or the sentinel below all keys. -/
def copy_to_staging_numeric (src : List NRow) (last_pk : Option Int) : List NRow :=
  copyNumericGo src (src.length + 1) (last_pk.getD (-1)) []

/-- SELECT max(pk) over the whole source table; NULL on an empty table. -/
def maxPk : List NRow → Option Int
  | [] => none
  | r :: rs => some (rs.foldl (fun m x => max m x.pk) r.pk)

/-- REPLACE semantics for one staged row: overwrite the destination row with
the same key, or append. -/
def replaceRowN (dest : List NRow) (r : NRow) : List NRow :=
  if dest.any (fun x => decide (x.pk = r.pk)) then
    dest.map (fun x => if x.pk = r.pk then r else x)
  else dest ++ [r]

/-- merge_into_target: REPLACE every staged row into the destination. -/
def merge_into_target_numeric (dest staged : List NRow) : List NRow :=
  staged.foldl replaceRowN dest

/-- The per-table slice of run_sync state on a numeric-key table: destination
rows and the stored cursor sync_state[cfg][table]. -/
structure NTableState where
  dest : List NRow
  cursor : Option Int
deriving DecidableEq

/-- One run_sync pass over one numeric-key table: stage above the stored
cursor, merge, then store max(pk) of the whole source as the new cursor. -/
def run_sync_table_numeric (src : List NRow) (st : NTableState) : List NRow × NTableState :=
  let staged := copy_to_staging_numeric src st.cursor
  (staged, ⟨merge_into_target_numeric st.dest staged, maxPk src⟩)

/-- A source row with a non-numeric (string) primary key. -/
structure SRow where
  pk : String
  payload : String
deriving DecidableEq

/-- Order on string-key rows used by ORDER BY pk. -/
def srowLe (a b : SRow) : Prop := strLe a.pk b.pk

instance : DecidableRel srowLe := fun a b => by unfold srowLe; infer_instance

/-- One batch of the fallback path: ordered rows, skipped by offset, limited
to CHUNK. -/
def selectChunkOffset (src : List SRow) (offset : Nat) : List SRow :=
  ((src.insertionSort srowLe).drop offset).take CHUNK

/-- The fallback loop of copy_to_staging: page through the whole relation in
CHUNK steps until a batch is empty. -/
def copyOffsetGo (src : List SRow) : Nat → Nat → List SRow → List SRow
  | 0, _, staged => staged
  | fuel + 1, offset, staged =>
    let batch := selectChunkOffset src offset
    if batch = [] then staged
    else copyOffsetGo src fuel (offset + CHUNK) (staged ++ batch)

/-- copy_to_staging on a non-numeric primary key: the stored cursor is
ignored and pagination always starts at offset zero. -/
def copy_to_staging_offset (src : List SRow) (last_pk : Option String) : List SRow :=
  copyOffsetGo src (src.length + 1) 0 []

/-- REPLACE semantics for one staged string-key row. -/
def replaceRowS (dest : List SRow) (r : SRow) : List SRow :=
  if dest.any (fun x => decide (x.pk = r.pk)) then
    dest.map (fun x => if x.pk = r.pk then r else x)
  else dest ++ [r]

/-- merge_into_target for string-key rows. -/
def merge_into_target_offset (dest staged : List SRow) : List SRow :=
  staged.foldl replaceRowS dest

/-- The per-table slice of run_sync state on a non-numeric-key table. -/
structure STableState where
  dest : List SRow
  cursor : Option String
deriving DecidableEq

/-- One run_sync pass over one non-numeric-key table: full restage, merge,
then reset the stored cursor to none. -/
def run_sync_table_offset (src : List SRow) (st : STableState) : List SRow × STableState :=
  let staged := copy_to_staging_offset src st.cursor
  (staged, ⟨merge_into_target_offset st.dest staged, none⟩)

/-- The destination statements of run_sync relevant to referential integrity:
the FK disable, the per-table work, and the FK re-enable. -/
inductive Stmt
  | disableFK
  | tableWork (name : String)
  | enableFK
deriving DecidableEq

/-- The per-table loop of run_sync as a statement trace: each table either
succeeds and appends its work, or raises and aborts the function body before
the trailing FK re-enable statement. -/
def runSyncGo (op : String → Except String Unit) :
    List String → List Stmt → List Stmt × Option String
  | [], acc => (acc ++ [Stmt.enableFK], none)
  | t :: ts, acc =>
    match op t with
    | Except.error e => (acc, some e)
    | Except.ok _ => runSyncGo op ts (acc ++ [Stmt.tableWork t])

/-- run_sync control flow: disable FK checks, process the plan in order,
re-enable FK checks only after the loop completes. -/
def run_sync_trace (plan : List String) (op : String → Except String Unit) :
    List Stmt × Option String :=
  runSyncGo op plan [Stmt.disableFK]

/-- Well-formedness of a built edge set: no duplicate edges, no self loops. -/
def EdgesWF (acc : List (TName × TName)) : Prop :=
  acc.Nodup ∧ ∀ e ∈ acc, e.1 ≠ e.2

/-- Concrete source table carrying a foreign key and an index touching the FK
column, used to test ensure_tables. -/
def srcTblFK : DTable :=
  ⟨"child", [⟨"id", false, false, some SDefault.seq⟩, ⟨"parent_id", false, false, none⟩],
    "id", [("parent_id", "parent.id")], [("ix_parent", ["parent_id"])]⟩

/-- Concrete graph with one unique bare name, one ambiguous bare name. -/
def gResolve : Graph := ⟨[("s.b", "s.a"), ("t.b", "t.a"), ("t.c", "t.a")]⟩

/-- The loop invariant of _toposort, relating the queue, the indeg dictionary
and the emitted order to the subset R. -/
structure KState (g : Graph) (R : List TName) (q : List TName) (ind : List (TName × Int))
    (E : List TName) : Prop where
  nd : (E ++ q).Nodup
  sub : ∀ t ∈ E ++ q, t ∈ R
  ind_spec : ∀ t, alookup ind t
      = if t ∈ R then some ((cntR g R t : Int) - (cem g t E : Int)) else none
  zero_iff : ∀ t ∈ R, (t ∈ E ++ q ↔ cem g t E = cntR g R t)
  emit_ord : ∀ c ∈ E, ∀ p, (c, p) ∈ g.edges → p ∈ R → p ∈ E ∧ posIn p E < posIn c E

/-- Concrete two-table catalog graph: s.b has parent s.a. -/
def gChild : Graph := ⟨[("s.b", "s.a")]⟩

/-- Concrete catalog whose only FK is a self reference, and a concrete
two-table FK cycle. -/
def catSelfRef : Catalog := [⟨"s", [⟨"t", [⟨none, "t"⟩]⟩]⟩]

/-- Concrete graph holding a two-table cycle. -/
def gCycle : Graph := ⟨[("s.x", "s.y"), ("s.y", "s.x")]⟩

/-- Concrete graph and subset on which the FIFO frontier differs from the
lexicographic frontier: s.aa only becomes eligible after s.a is emitted. -/
def gC3 : Graph := ⟨[("s.aa", "s.a")]⟩

/-- The subset used with gC3. -/
def rC3 : List TName := ["s.a", "s.aa", "s.b"]

/-! ## General list lemmas -/

theorem foldl_preserve {α β : Type} {P : β → Prop} {f : β → α → β}
    (hf : ∀ b a, P b → P (f b a)) : ∀ (l : List α) (b : β), P b → P (l.foldl f b) := by
  intro l
  induction l with
  | nil => intro b hb; exact hb
  | cons a l ih => intro b hb; exact ih _ (hf _ _ hb)

theorem posIn_append_left {a : TName} :
    ∀ {l₁ : List TName} (l₂ : List TName), a ∈ l₁ → posIn a (l₁ ++ l₂) = posIn a l₁ := by
  intro l₁
  induction l₁ with
  | nil => intro l₂ h; cases h
  | cons b l ih =>
    intro l₂ h
    by_cases hb : b = a
    · simp [posIn, hb]
    · have : a ∈ l := by
        rcases List.mem_cons.mp h with h' | h'
        · exact absurd h'.symm hb
        · exact h'
      simp [posIn, hb, ih l₂ this]

theorem posIn_lt_length {a : TName} : ∀ {l : List TName}, a ∈ l → posIn a l < l.length := by
  intro l
  induction l with
  | nil => intro h; cases h
  | cons b l ih =>
    intro h
    by_cases hb : b = a
    · simp [posIn, hb]
    · have : a ∈ l := by
        rcases List.mem_cons.mp h with h' | h'
        · exact absurd h'.symm hb
        · exact h'
      simp only [posIn, if_neg hb, List.length_cons]
      exact Nat.succ_lt_succ (ih this)

theorem posIn_append_self {a : TName} : ∀ {l : List TName}, a ∉ l → posIn a (l ++ [a]) = l.length := by
  intro l
  induction l with
  | nil => intro _; simp [posIn]
  | cons b l ih =>
    intro h
    have hb : b ≠ a := fun hba => h (hba ▸ List.mem_cons_self b l)
    have ha : a ∉ l := fun hm => h (List.mem_cons_of_mem _ hm)
    simp [posIn, hb, ih ha]

theorem filter_eq_of_imp_of_length {p q : TName → Bool} (l : List TName)
    (h : ∀ x, p x = true → q x = true)
    (hlen : (l.filter p).length = (l.filter q).length) : l.filter p = l.filter q :=
  (List.monotone_filter_right l h).eq_of_length hlen

theorem length_filter_mem_append_singleton (l E : List TName) (n : TName)
    (hn : n ∉ E) (hl : l.Nodup) :
    (l.filter (fun x => decide (x ∈ E ++ [n]))).length
      = (l.filter (fun x => decide (x ∈ E))).length + (if n ∈ l then 1 else 0) := by
  induction l with
  | nil => simp
  | cons a l ih =>
    rcases List.nodup_cons.mp hl with ⟨ha, hl'⟩
    by_cases han : a = n
    · subst han
      have h1 : (a ∈ E ++ [a]) := List.mem_append.mpr (Or.inr (List.mem_cons_self a []))
      have h2 : a ∉ E := hn
      simp only [List.filter_cons, decide_eq_true_eq]
      rw [if_pos h1, if_neg h2]
      simp only [List.length_cons, ih hl']
      have : a ∈ a :: l := List.mem_cons_self a l
      rw [if_neg ha, if_pos this]
    · have hmem : (a ∈ E ++ [n]) ↔ (a ∈ E) := by
        rw [List.mem_append]
        constructor
        · rintro (h | h)
          · exact h
          · exact absurd (List.mem_singleton.mp h) han
        · exact Or.inl
      have hnl : (n ∈ a :: l) ↔ (n ∈ l) := by
        constructor
        · intro h
          rcases List.mem_cons.mp h with h' | h'
          · exact absurd h'.symm han
          · exact h'
        · exact List.mem_cons_of_mem a
      simp only [List.filter_cons, decide_eq_true_eq]
      by_cases haE : a ∈ E
      · rw [if_pos (hmem.mpr haE), if_pos haE]
        simp only [List.length_cons, ih hl']
        rw [if_congr hnl rfl rfl]
        omega
      · rw [if_neg (fun h => haE (hmem.mp h)), if_neg haE]
        rw [ih hl', if_congr hnl rfl rfl]

/-! ## Graph basic lemmas -/

theorem mem_parentsOf {g : Graph} {t p : TName} : p ∈ g.parentsOf t ↔ (t, p) ∈ g.edges := by
  unfold Graph.parentsOf
  simp only [List.mem_map, List.mem_filter, decide_eq_true_eq]
  constructor
  · rintro ⟨⟨a, b⟩, ⟨he, h1⟩, h2⟩
    simp only at h1 h2
    subst h1; subst h2
    exact he
  · intro h
    exact ⟨(t, p), ⟨h, rfl⟩, rfl⟩

theorem mem_childrenOf {g : Graph} {p c : TName} : c ∈ g.childrenOf p ↔ (c, p) ∈ g.edges := by
  unfold Graph.childrenOf
  simp only [List.mem_map, List.mem_filter, decide_eq_true_eq]
  constructor
  · rintro ⟨⟨a, b⟩, ⟨he, h1⟩, h2⟩
    simp only at h1 h2
    subst h1; subst h2
    exact he
  · intro h
    exact ⟨(c, p), ⟨h, rfl⟩, rfl⟩

theorem parentsOf_nodup {g : Graph} (hg : g.edges.Nodup) (t : TName) : (g.parentsOf t).Nodup := by
  unfold Graph.parentsOf
  refine List.Nodup.map_on ?_ (hg.filter _)
  rintro ⟨a, b⟩ hx ⟨a', b'⟩ hy hsnd
  have hxa : a = t := by
    have := (List.mem_filter.mp hx).2
    simpa using this
  have hya : a' = t := by
    have := (List.mem_filter.mp hy).2
    simpa using this
  simp only at hsnd
  subst hxa; subst hya; subst hsnd
  rfl

theorem childrenOf_nodup {g : Graph} (hg : g.edges.Nodup) (p : TName) : (g.childrenOf p).Nodup := by
  unfold Graph.childrenOf
  refine List.Nodup.map_on ?_ (hg.filter _)
  rintro ⟨a, b⟩ hx ⟨a', b'⟩ hy hfst
  have hxb : b = p := by
    have := (List.mem_filter.mp hx).2
    simpa using this
  have hyb : b' = p := by
    have := (List.mem_filter.mp hy).2
    simpa using this
  simp only at hfst
  subst hxb; subst hyb; subst hfst
  rfl

theorem nodes_nodup (g : Graph) : g.nodes.Nodup := List.nodup_dedup _

theorem fst_mem_nodes {g : Graph} {c p : TName} (h : (c, p) ∈ g.edges) : c ∈ g.nodes := by
  unfold Graph.nodes
  rw [List.mem_dedup, List.mem_append]
  exact Or.inl (List.mem_map.mpr ⟨(c, p), h, rfl⟩)

theorem snd_mem_nodes {g : Graph} {c p : TName} (h : (c, p) ∈ g.edges) : p ∈ g.nodes := by
  unfold Graph.nodes
  rw [List.mem_dedup, List.mem_append]
  exact Or.inr (List.mem_map.mpr ⟨(c, p), h, rfl⟩)

/-! ## Column resolution and destination-table lemmas -/

theorem wipeCol_hasDefault (c : DCol) : (wipeCol c).hasDefault = false := rfl

theorem wipeCol_server_default (c : DCol) :
    ∀ sd, (wipeCol c).server_default = some sd → sd.isSeqLike = false := by
  obtain ⟨nm, nb, hd, sdf⟩ := c
  intro sd h
  cases sdf with
  | none => simp [wipeCol] at h
  | some sd0 =>
    by_cases hs : sd0.isSeqLike = true
    · simp [wipeCol, hs] at h
    · simp [wipeCol, hs] at h
      subst h
      simpa using hs

/-- C7: for every table processed by run_sync, the resolved column set equals
the union of the user-selected columns (or all source columns for the
wildcard), every NOT-NULL no-default column, and the primary-key column; in
particular a required column omitted from the selection still appears. -/
theorem claim_C7_resolve_cols (sel : Option (List String)) (tbl : DTable) :
    (∀ c, c ∈ resolve_cols sel tbl ↔
      (c ∈ userColsSel sel tbl ∨ c ∈ required_cols tbl ∨ c = tbl.pk)) ∧
    (∀ c, c ∈ required_cols tbl → c ∈ resolve_cols sel tbl) := by
  have main : ∀ c, c ∈ resolve_cols sel tbl ↔
      (c ∈ userColsSel sel tbl ∨ c ∈ required_cols tbl ∨ c = tbl.pk) := by
    intro c
    unfold resolve_cols
    by_cases hpk : tbl.pk ∈ (userColsSel sel tbl ++ required_cols tbl).dedup
    · rw [if_pos hpk]
      simp only [List.mem_dedup, List.mem_append] at hpk ⊢
      constructor
      · rintro (h | h)
        · exact Or.inl h
        · exact Or.inr (Or.inl h)
      · rintro (h | h | rfl)
        · exact Or.inl h
        · exact Or.inr h
        · exact hpk
    · rw [if_neg hpk]
      simp only [List.mem_append, List.mem_dedup, List.mem_singleton]
      tauto
  exact ⟨main, fun c hc => (main c).mpr (Or.inr (Or.inl hc))⟩


/-- C8 counterexample: when the destination table is absent, the created table
keeps the source foreign keys and keeps the secondary index touching the FK
column, contrary to the claim that both are stripped. -/
theorem claim_C8_counterexample :
    (ensure_tables_dest [] srcTblFK).fks = [("parent_id", "parent.id")] ∧
    (ensure_tables_dest [] srcTblFK).indexes = [("ix_parent", ["parent_id"])] := by
  exact ⟨rfl, rfl⟩

/-- C8 amended: when absent, the destination table is created with the
source's name, key and columns, with Python-side defaults dropped and
sequence-or-nextval server defaults dropped; foreign keys and all secondary
indexes are copied unchanged.  When present, the table is reused unmodified. -/
theorem claim_C8_amended (dest_meta : List DTable) (src_tbl : DTable) :
    (dest_meta.find? (fun t => t.name == src_tbl.name) = none →
      (ensure_tables_dest dest_meta src_tbl).name = src_tbl.name ∧
      (ensure_tables_dest dest_meta src_tbl).pk = src_tbl.pk ∧
      (ensure_tables_dest dest_meta src_tbl).fks = src_tbl.fks ∧
      (ensure_tables_dest dest_meta src_tbl).indexes = src_tbl.indexes ∧
      (ensure_tables_dest dest_meta src_tbl).columns = src_tbl.columns.map wipeCol ∧
      ∀ c ∈ (ensure_tables_dest dest_meta src_tbl).columns,
        c.hasDefault = false ∧ ∀ sd, c.server_default = some sd → sd.isSeqLike = false) ∧
    (∀ t, dest_meta.find? (fun t2 => t2.name == src_tbl.name) = some t →
      ensure_tables_dest dest_meta src_tbl = t) := by
  constructor
  · intro hnone
    unfold ensure_tables_dest
    rw [hnone]
    refine ⟨rfl, rfl, rfl, rfl, rfl, ?_⟩
    intro c hc
    simp only at hc
    rcases List.mem_map.mp hc with ⟨c0, _, rfl⟩
    exact ⟨wipeCol_hasDefault c0, wipeCol_server_default c0⟩
  · intro t ht
    unfold ensure_tables_dest
    rw [ht]

/-- C8 witness: both branches of the amended statement at concrete tables. -/
theorem claim_C8_witness :
    (ensure_tables_dest [] srcTblFK).fks = srcTblFK.fks ∧
    (ensure_tables_dest [] srcTblFK).columns = srcTblFK.columns.map wipeCol ∧
    ensure_tables_dest [srcTblFK] srcTblFK = srcTblFK := by
  have h1 := (claim_C8_amended [] srcTblFK).1 rfl
  have h2 := (claim_C8_amended [srcTblFK] srcTblFK).2 srcTblFK rfl
  exact ⟨h1.2.2.1, h1.2.2.2.2.1, h2⟩

/-! ## run_sync FK-check trace -/

theorem runSyncGo_spec (op : String → Except String Unit) :
    ∀ (plan : List String) (acc : List Stmt), Stmt.enableFK ∉ acc →
      (Stmt.enableFK ∈ (runSyncGo op plan acc).1 ↔ ∀ t ∈ plan, op t = Except.ok ()) ∧
      (∀ e, (runSyncGo op plan acc).2 = some e →
        Stmt.enableFK ∉ (runSyncGo op plan acc).1 ∧ ∃ t ∈ plan, op t = Except.error e) ∧
      ((runSyncGo op plan acc).2 = none ↔ ∀ t ∈ plan, op t = Except.ok ()) := by
  intro plan
  induction plan with
  | nil =>
    intro acc hacc
    refine ⟨?_, ?_, ?_⟩
    · simp [runSyncGo]
    · intro e he; cases he
    · simp [runSyncGo]
  | cons t ts ih =>
    intro acc hacc
    cases hop : op t with
    | error e =>
      have hres : runSyncGo op (t :: ts) acc = (acc, some e) := by
        unfold runSyncGo; rw [hop]
      rw [hres]
      refine ⟨?_, ?_, ?_⟩
      · simp only
        constructor
        · intro h; exact absurd h hacc
        · intro h
          have := h t (List.mem_cons_self t ts)
          rw [hop] at this; cases this
      · intro e' he'
        simp only at he'
        injection he' with he'
        subst he'
        exact ⟨hacc, t, List.mem_cons_self t ts, hop⟩
      · simp only
        constructor
        · intro h; cases h
        · intro h
          have := h t (List.mem_cons_self t ts)
          rw [hop] at this; cases this
    | ok u =>
      cases u
      have hres : runSyncGo op (t :: ts) acc = runSyncGo op ts (acc ++ [Stmt.tableWork t]) := by
        conv_lhs => unfold runSyncGo
        rw [hop]
      have hacc' : Stmt.enableFK ∉ acc ++ [Stmt.tableWork t] := by
        intro h
        rcases List.mem_append.mp h with h' | h'
        · exact hacc h'
        · cases List.mem_singleton.mp h'
      obtain ⟨ih1, ih2, ih3⟩ := ih (acc ++ [Stmt.tableWork t]) hacc'
      rw [hres]
      refine ⟨?_, ?_, ?_⟩
      · rw [ih1]
        constructor
        · intro h t' ht'
          rcases List.mem_cons.mp ht' with rfl | ht''
          · exact hop
          · exact h t' ht''
        · intro h t' ht'
          exact h t' (List.mem_cons_of_mem t ht')
      · intro e he
        obtain ⟨hne, t', ht', hop'⟩ := ih2 e he
        exact ⟨hne, t', List.mem_cons_of_mem t ht', hop'⟩
      · rw [ih3]
        constructor
        · intro h t' ht'
          rcases List.mem_cons.mp ht' with rfl | ht''
          · exact hop
          · exact h t' ht''
        · intro h t' ht'
          exact h t' (List.mem_cons_of_mem t ht')

/-- C10: the FK re-enable statement of run_sync executes exactly when every
table of the plan completes successfully; a per-table failure propagates and
leaves the trace without the re-enable, so destination FK checking stays
suspended. -/
theorem claim_C10_fk_restore (plan : List String) (op : String → Except String Unit) :
    (Stmt.enableFK ∈ (run_sync_trace plan op).1 ↔ ∀ t ∈ plan, op t = Except.ok ()) ∧
    (∀ e, (run_sync_trace plan op).2 = some e →
      Stmt.enableFK ∉ (run_sync_trace plan op).1 ∧ ∃ t ∈ plan, op t = Except.error e) ∧
    ((run_sync_trace plan op).2 = none ↔ ∀ t ∈ plan, op t = Except.ok ()) := by
  have h : Stmt.enableFK ∉ [Stmt.disableFK] := by
    intro hc
    cases List.mem_singleton.mp hc
  exact runSyncGo_spec op plan [Stmt.disableFK] h

/-- C10 witness: a failing plan at a concrete input, via the theorem. -/
theorem claim_C10_witness :
    Stmt.enableFK ∉ (run_sync_trace ["company.child"]
      (fun _ => Except.error "merge failed")).1 ∧
    ∃ t ∈ ["company.child"],
      (fun _ => Except.error "merge failed" : String → Except String Unit) t
        = Except.error "merge failed" :=
  (claim_C10_fk_restore ["company.child"] (fun _ => Except.error "merge failed")).2.1
    "merge failed" rfl

/-! ## Numeric-path staging lemmas -/

theorem foldl_max_spec (rs : List NRow) : ∀ (a : Int),
    (a ≤ rs.foldl (fun m x => max m x.pk) a) ∧
    (∀ r ∈ rs, r.pk ≤ rs.foldl (fun m x => max m x.pk) a) ∧
    ((rs.foldl (fun m x => max m x.pk) a) = a ∨
      ∃ r ∈ rs, (rs.foldl (fun m x => max m x.pk) a) = r.pk) := by
  induction rs with
  | nil => intro a; simp
  | cons r rs ih =>
    intro a
    simp only [List.foldl_cons]
    obtain ⟨h1, h2, h3⟩ := ih (max a r.pk)
    refine ⟨le_trans (le_max_left a r.pk) h1, ?_, ?_⟩
    · intro x hx
      rcases List.mem_cons.mp hx with rfl | hx'
      · exact le_trans (le_max_right a x.pk) h1
      · exact h2 x hx'
    · rcases h3 with h3 | ⟨x, hx, h3⟩
      · rcases max_cases a r.pk with ⟨hm, _⟩ | ⟨hm, _⟩
        · left; rw [h3, hm]
        · right; exact ⟨r, List.mem_cons_self _ _, by rw [h3, hm]⟩
      · right; exact ⟨x, List.mem_cons_of_mem _ hx, h3⟩

theorem maxPk_spec : ∀ (src : List NRow) (m : Int), maxPk src = some m →
    (∃ r ∈ src, r.pk = m) ∧ ∀ r ∈ src, r.pk ≤ m := by
  intro src m h
  cases src with
  | nil => cases h
  | cons r rs =>
    unfold maxPk at h
    injection h with h
    obtain ⟨h1, h2, h3⟩ := foldl_max_spec rs r.pk
    subst h
    constructor
    · rcases h3 with h3 | ⟨x, hx, h3⟩
      · exact ⟨r, List.mem_cons_self _ _, h3.symm⟩
      · exact ⟨x, List.mem_cons_of_mem _ hx, h3.symm⟩
    · intro x hx
      rcases List.mem_cons.mp hx with rfl | hx'
      · exact h1
      · exact h2 x hx'

theorem mem_selectChunkNumeric {src : List NRow} {cursor : Int} {r : NRow}
    (h : r ∈ selectChunkNumeric src cursor) : r ∈ src ∧ cursor < r.pk := by
  unfold selectChunkNumeric at h
  have h1 : r ∈ (src.filter (fun r => decide (cursor < r.pk))).insertionSort nrowLe :=
    List.mem_of_mem_take h
  rw [List.mem_insertionSort] at h1
  have h2 := List.mem_filter.mp h1
  exact ⟨h2.1, by simpa using h2.2⟩

theorem mem_copyNumericGo {src : List NRow} :
    ∀ (fuel : Nat) (cursor : Int) (acc : List NRow) (r : NRow),
      r ∈ copyNumericGo src fuel cursor acc → r ∈ acc ∨ (r ∈ src ∧ cursor < r.pk) := by
  intro fuel
  induction fuel with
  | zero => intro cursor acc r h; exact Or.inl h
  | succ f ih =>
    intro cursor acc r h
    rw [copyNumericGo] at h
    cases hb : (selectChunkNumeric src cursor).getLast? with
    | none =>
      rw [hb] at h
      exact Or.inl h
    | some lastRow =>
      rw [hb] at h
      simp only at h
      rcases ih _ _ _ h with hacc | ⟨hsrc, hgt⟩
      · rcases List.mem_append.mp hacc with h' | h'
        · exact Or.inl h'
        · exact Or.inr (mem_selectChunkNumeric h')
      · refine Or.inr ⟨hsrc, ?_⟩
        have hlast : lastRow ∈ selectChunkNumeric src cursor := by
          rcases List.getLast?_eq_some_iff.mp hb with ⟨ys, hys⟩
          rw [hys]
          exact List.mem_append.mpr (Or.inr (List.mem_cons_self _ _))
        exact lt_trans (mem_selectChunkNumeric hlast).2 hgt

theorem copyNumericGo_no_rows {src : List NRow} {cursor : Int} (f : Nat) (acc : List NRow)
    (h : ∀ x ∈ src, ¬ cursor < x.pk) : copyNumericGo src (f + 1) cursor acc = acc := by
  have hfil : src.filter (fun r => decide (cursor < r.pk)) = [] :=
    List.filter_eq_nil_iff.mpr (by intro a ha; simpa using h a ha)
  rw [copyNumericGo]
  unfold selectChunkNumeric
  rw [hfil]
  rfl

theorem copy_staging_numeric_at_max (src : List NRow) :
    copy_to_staging_numeric src (maxPk src) = [] := by
  unfold copy_to_staging_numeric
  cases hsrc : maxPk src with
  | none =>
    cases src with
    | nil => rfl
    | cons r rs => cases hsrc
  | some m =>
    obtain ⟨_, hle⟩ := maxPk_spec src m hsrc
    exact copyNumericGo_no_rows src.length []
      (fun x hx => by simpa using not_lt_of_le (hle x hx))

/-- C2: running the numeric-primary-key sync twice on an unchanged source
stages zero rows the second time and leaves the destination unchanged; the
cursor written by the first run is the maximum key of the whole source table,
and the chunked copy only ever stages rows with key strictly above the cursor
it starts from. -/
theorem claim_C2_second_run_noop (src : List NRow) (st0 : NTableState) :
    (run_sync_table_numeric src st0).2.cursor = maxPk src ∧
    (∀ m, maxPk src = some m → (∃ r ∈ src, r.pk = m) ∧ ∀ r ∈ src, r.pk ≤ m) ∧
    (run_sync_table_numeric src (run_sync_table_numeric src st0).2).1 = [] ∧
    (run_sync_table_numeric src (run_sync_table_numeric src st0).2).2.dest
      = (run_sync_table_numeric src st0).2.dest ∧
    (∀ (cursor : Int) (fuel : Nat) (r : NRow),
      r ∈ copyNumericGo src fuel cursor [] → cursor < r.pk) := by
  have hstaged2 :
      (run_sync_table_numeric src (run_sync_table_numeric src st0).2).1 = [] := by
    show copy_to_staging_numeric src (maxPk src) = []
    exact copy_staging_numeric_at_max src
  refine ⟨rfl, fun m hm => maxPk_spec src m hm, hstaged2, ?_, ?_⟩
  · show merge_into_target_numeric _ (copy_to_staging_numeric src (maxPk src)) = _
    rw [copy_staging_numeric_at_max src]
    rfl
  · intro cursor fuel r hr
    rcases mem_copyNumericGo fuel cursor [] r hr with h | h
    · cases h
    · exact h.2

/-- C2 witness: a two-row source at concrete values, via the theorem. -/
theorem claim_C2_witness :
    (run_sync_table_numeric [⟨1, "a"⟩, ⟨2, "b"⟩] ⟨[], none⟩).2.cursor = some 2 ∧
    (∃ r ∈ [(⟨1, "a"⟩ : NRow), ⟨2, "b"⟩], r.pk = 2) ∧
    (run_sync_table_numeric [⟨1, "a"⟩, ⟨2, "b"⟩]
      (run_sync_table_numeric [⟨1, "a"⟩, ⟨2, "b"⟩] ⟨[], none⟩).2).1 = [] := by
  obtain ⟨h1, h2, h3, _, _⟩ := claim_C2_second_run_noop [⟨1, "a"⟩, ⟨2, "b"⟩] ⟨[], none⟩
  exact ⟨h1, (h2 2 rfl).1, h3⟩

/-! ## Offset-path staging lemmas -/

theorem copyOffsetGo_collects (src : List SRow) :
    ∀ (fuel offset : Nat) (acc : List SRow),
      ((src.insertionSort srowLe).drop offset).length < fuel →
      copyOffsetGo src fuel offset acc = acc ++ (src.insertionSort srowLe).drop offset := by
  intro fuel
  induction fuel with
  | zero => intro off acc h; exact absurd h (Nat.not_lt_zero _)
  | succ f ih =>
    intro off acc h
    rw [copyOffsetGo]
    unfold selectChunkOffset
    by_cases hdrop : (src.insertionSort srowLe).drop off = []
    · rw [hdrop]
      simp
    · have hCHUNK : 0 < CHUNK := by decide
      have hbatch : ((src.insertionSort srowLe).drop off).take CHUNK ≠ [] := by
        intro hc
        rcases List.take_eq_nil_iff.mp hc with h0 | h0
        · omega
        · exact hdrop h0
      rw [if_neg hbatch]
      have hlen : ((src.insertionSort srowLe).drop (off + CHUNK)).length < f := by
        have e1 : ((src.insertionSort srowLe).drop off).length
            = (src.insertionSort srowLe).length - off := List.length_drop off _
        have e2 : ((src.insertionSort srowLe).drop (off + CHUNK)).length
            = (src.insertionSort srowLe).length - (off + CHUNK) :=
          List.length_drop (off + CHUNK) _
        have hpos : 0 < ((src.insertionSort srowLe).drop off).length :=
          List.length_pos.mpr hdrop
        omega
      rw [ih (off + CHUNK) (acc ++ _) hlen]
      rw [List.append_assoc]
      congr 1
      have hdd : (src.insertionSort srowLe).drop (off + CHUNK)
          = ((src.insertionSort srowLe).drop off).drop CHUNK := by
        rw [List.drop_drop, Nat.add_comm]
      rw [hdd]
      exact List.take_append_drop CHUNK _

theorem copy_to_staging_offset_full (src : List SRow) (c : Option String) :
    copy_to_staging_offset src c = src.insertionSort srowLe := by
  unfold copy_to_staging_offset
  rw [copyOffsetGo_collects src (src.length + 1) 0 []]
  · rw [List.drop_zero, List.nil_append]
  · rw [List.drop_zero, (List.perm_insertionSort srowLe src).length_eq]
    omega

/-- C9: on a non-numeric primary key every run stages the entire source
relation via offset pagination, independently of any stored cursor; the
cursor is reset to none after the run, and the following run on an unchanged
source again stages the whole relation. -/
theorem claim_C9_full_reload (src : List SRow) (st : STableState) :
    (∀ c c', copy_to_staging_offset src c = copy_to_staging_offset src c') ∧
    List.Perm (run_sync_table_offset src st).1 src ∧
    (run_sync_table_offset src st).2.cursor = none ∧
    List.Perm (run_sync_table_offset src (run_sync_table_offset src st).2).1 src := by
  refine ⟨?_, ?_, rfl, ?_⟩
  · intro c c'
    rw [copy_to_staging_offset_full src c, copy_to_staging_offset_full src c']
  · show List.Perm (copy_to_staging_offset src st.cursor) src
    rw [copy_to_staging_offset_full]
    exact List.perm_insertionSort srowLe src
  · show List.Perm (copy_to_staging_offset src none) src
    rw [copy_to_staging_offset_full]
    exact List.perm_insertionSort srowLe src

/-! ## resolve lemmas -/

/-- C6: resolve returns dotted names unchanged; a bare name raises the
not-found error when no known qualified name carries the dot-name suffix,
returns the unique match when exactly one does, and raises the ambiguous
error listing every candidate when more than one does. -/
theorem claim_C6_resolve (g : Graph) (name : String) :
    (containsDot name = true → resolve g name = Except.ok name) ∧
    (containsDot name = false →
      (g.nodes.filter (fun t => endsWithS t ("." ++ name)) = [] →
        resolve g name = Except.error (ResolveErr.notFound name)) ∧
      (∀ c, g.nodes.filter (fun t => endsWithS t ("." ++ name)) = [c] →
        resolve g name = Except.ok c) ∧
      (1 < (g.nodes.filter (fun t => endsWithS t ("." ++ name))).length →
        ∃ cs, resolve g name = Except.error (ResolveErr.ambiguous name cs) ∧
          cs.Nodup ∧ ∀ t, t ∈ cs ↔ (t ∈ g.nodes ∧ endsWithS t ("." ++ name) = true))) := by
  constructor
  · intro h
    unfold resolve
    rw [h]
    rfl
  · intro h
    refine ⟨?_, ?_, ?_⟩
    · intro hnil
      unfold resolve
      rw [h, hnil]
      rfl
    · intro c hc
      unfold resolve
      rw [h, hc]
      rfl
    · intro hlen
      cases hl : g.nodes.filter (fun t => endsWithS t ("." ++ name)) with
      | nil => rw [hl] at hlen; simp at hlen
      | cons a tl =>
        cases tl with
        | nil => rw [hl] at hlen; simp at hlen
        | cons b tl2 =>
          refine ⟨a :: b :: tl2, ?_, ?_, ?_⟩
          · unfold resolve
            rw [h, hl]
            rfl
          · rw [← hl]
            exact (nodes_nodup g).filter _
          · intro t
            rw [← hl, List.mem_filter]
/-! ## Build lemmas -/


theorem addFK_preserve (child : TName) (schema : String) :
    ∀ (acc : List (TName × TName)) (fk : FKInfo), EdgesWF acc → EdgesWF (addFK child schema acc fk) := by
  intro acc fk ⟨hnd, hns⟩
  unfold EdgesWF
  unfold addFK
  by_cases h1 : qual (fk.referred_schema.getD schema) fk.referred_table = child
  · rw [if_pos h1]; exact ⟨hnd, hns⟩
  · rw [if_neg h1]
    by_cases h2 : (child, qual (fk.referred_schema.getD schema) fk.referred_table) ∈ acc
    · rw [if_pos h2]; exact ⟨hnd, hns⟩
    · rw [if_neg h2]
      constructor
      · rw [List.nodup_append]
        refine ⟨hnd, List.nodup_singleton _, ?_⟩
        rw [List.disjoint_left]
        intro e he hmem
        rw [List.mem_singleton] at hmem
        subst hmem
        exact h2 he
      · intro e he
        rcases List.mem_append.mp he with h' | h'
        · exact hns e h'
        · rw [List.mem_singleton] at h'
          subst h'
          exact fun hc => h1 hc.symm

theorem buildGraph_wf (cat : Catalog) (incl excl : Option (List String)) :
    EdgesWF (buildGraph cat incl excl).edges := by
  unfold buildGraph
  have base : EdgesWF [] := ⟨List.nodup_nil, by intro e he; cases he⟩
  refine foldl_preserve ?_ cat [] base
  intro acc sch hacc
  unfold addSchema
  by_cases h1 : includeBlocks incl sch.name = true
  · rw [if_pos h1]; exact hacc
  · rw [if_neg h1]
    by_cases h2 : sch.name ∈ resolveExclude excl
    · rw [if_pos h2]; exact hacc
    · rw [if_neg h2]
      refine foldl_preserve ?_ sch.tables acc hacc
      intro acc2 tbl hacc2
      unfold addTable
      exact foldl_preserve (addFK_preserve _ sch.name) tbl.fks acc2 hacc2


/-- C6 witness: all four resolve outcomes at concrete inputs, via the theorem. -/
theorem claim_C6_witness :
    resolve gResolve "s.b" = Except.ok "s.b" ∧
    resolve gResolve "zz" = Except.error (ResolveErr.notFound "zz") ∧
    resolve gResolve "c" = Except.ok "t.c" ∧
    (∃ cs, resolve gResolve "b" = Except.error (ResolveErr.ambiguous "b" cs) ∧
      cs.Nodup ∧ ∀ t, t ∈ cs ↔ (t ∈ gResolve.nodes ∧ endsWithS t ("." ++ "b") = true)) := by
  have h := claim_C6_resolve gResolve
  exact ⟨(h "s.b").1 (by decide), ((h "zz").2 (by decide)).1 (by decide),
    ((h "c").2 (by decide)).2.1 "t.c" (by decide), ((h "b").2 (by decide)).2.2 (by decide)⟩

/-- C7 witness: a NOT-NULL no-default column left out of the selection still
appears among the resolved columns, via the theorem. -/
theorem claim_C7_witness :
    "parent_id" ∈ required_cols srcTblFK ∧
    "parent_id" ∈ resolve_cols (some ["label"]) srcTblFK :=
  ⟨by decide, (claim_C7_resolve_cols (some ["label"]) srcTblFK).2 "parent_id" (by decide)⟩

/-! ## Closure lemmas -/

theorem closureGo_sound (g : Graph) (P : TName → Prop)
    (hP : ∀ a b, P a → (a, b) ∈ g.edges → P b) :
    ∀ (fuel : Nat) (q acc : List TName), (∀ t ∈ acc, P t) → (∀ t ∈ q, P t) →
      ∀ t ∈ closureGo g fuel q acc, P t := by
  intro fuel
  induction fuel with
  | zero => intro q acc hacc _ t ht; exact hacc t ht
  | succ f ih =>
    intro q acc hacc hq t ht
    cases q with
    | nil => exact hacc t ht
    | cons x rest =>
      rw [closureGo] at ht
      have hnew : ∀ u ∈ (g.parentsOf x).filter (fun p => decide (p ∉ acc)), P u := by
        intro u hu
        have hpar : u ∈ g.parentsOf x := List.mem_of_mem_filter hu
        exact hP x u (hq x (List.mem_cons_self _ _)) (mem_parentsOf.mp hpar)
      refine ih _ _ ?_ ?_ t ht
      · intro u hu
        rcases List.mem_append.mp hu with h' | h'
        · exact hacc u h'
        · exact hnew u h'
      · intro u hu
        rcases List.mem_append.mp hu with h' | h'
        · exact hq u (List.mem_cons_of_mem _ h')
        · exact hnew u h'

theorem length_filter_split (l : List TName) (p r : TName → Bool) :
    (l.filter p).length
      = (l.filter (fun x => p x && r x)).length + (l.filter (fun x => p x && !r x)).length := by
  induction l with
  | nil => rfl
  | cons a l ih =>
    simp only [List.filter_cons]
    cases hp : p a <;> cases hr : r a <;> simp [hp, hr, ih] <;> omega

theorem cntOut_append (l : List TName) (hl : l.Nodup) (acc new : List TName)
    (hnew : new.Nodup) (hsub : ∀ x ∈ new, x ∈ l) (hdisj : ∀ x ∈ new, x ∉ acc) :
    (l.filter (fun x => decide (x ∉ acc ++ new))).length + new.length
      = (l.filter (fun x => decide (x ∉ acc))).length := by
  have hsplit := length_filter_split l (fun x => decide (x ∉ acc)) (fun x => decide (x ∈ new))
  have h1 : l.filter (fun x => decide (x ∉ acc) && decide (x ∈ new))
      = l.filter (fun x => decide (x ∈ new)) := by
    apply List.filter_congr
    intro x _
    by_cases hxn : x ∈ new
    · simp [hxn, hdisj x hxn]
    · simp [hxn]
  have h2 : (l.filter (fun x => decide (x ∈ new))).length = new.length := by
    have hnd : (l.filter (fun x => decide (x ∈ new))).Nodup := hl.filter _
    have hperm : List.Perm (l.filter (fun x => decide (x ∈ new))) new := by
      rw [List.perm_ext_iff_of_nodup hnd hnew]
      intro a
      rw [List.mem_filter]
      constructor
      · intro ⟨_, h⟩; simpa using h
      · intro h; exact ⟨hsub a h, by simpa using h⟩
    exact hperm.length_eq
  have h3 : l.filter (fun x => decide (x ∉ acc) && !(decide (x ∈ new)))
      = l.filter (fun x => decide (x ∉ acc ++ new)) := by
    apply List.filter_congr
    intro x _
    by_cases hxa : x ∈ acc
    · simp [hxa, List.mem_append]
    · by_cases hxn : x ∈ new
      · simp [hxa, hxn, List.mem_append]
      · simp [hxa, hxn, List.mem_append]
  rw [h1, h2] at hsplit
  rw [h3] at hsplit
  omega

theorem closureGo_closed (g : Graph) (hg : g.edges.Nodup) :
    ∀ (fuel : Nat) (q acc : List TName),
      acc.Nodup → (∀ t ∈ q, t ∈ acc) →
      (∀ t ∈ acc, t ∉ q → ∀ p, (t, p) ∈ g.edges → p ∈ acc) →
      q.length + (g.nodes.filter (fun x => decide (x ∉ acc))).length ≤ fuel →
      (closureGo g fuel q acc).Nodup ∧
      (∀ t ∈ acc, t ∈ closureGo g fuel q acc) ∧
      (∀ t ∈ closureGo g fuel q acc, ∀ p, (t, p) ∈ g.edges → p ∈ closureGo g fuel q acc) := by
  intro fuel
  induction fuel with
  | zero =>
    intro q acc hnd hqa hclosed hfuel
    have hq : q = [] := by
      cases q with
      | nil => rfl
      | cons a l => simp at hfuel
    subst hq
    refine ⟨hnd, fun t ht => ht, ?_⟩
    intro t ht p hp
    exact hclosed t ht (by intro hc; cases hc) p hp
  | succ f ih =>
    intro q acc hnd hqa hclosed hfuel
    cases q with
    | nil =>
      refine ⟨hnd, fun t ht => ht, ?_⟩
      intro t ht p hp
      exact hclosed t ht (by intro hc; cases hc) p hp
    | cons x rest =>
      rw [closureGo]
      have hnewnd : ((g.parentsOf x).filter (fun p => decide (p ∉ acc))).Nodup :=
        (parentsOf_nodup hg x).filter _
      have hnewacc : ∀ u ∈ (g.parentsOf x).filter (fun p => decide (p ∉ acc)), u ∉ acc := by
        intro u hu
        have := (List.mem_filter.mp hu).2
        simpa using this
      have hnewnodes : ∀ u ∈ (g.parentsOf x).filter (fun p => decide (p ∉ acc)), u ∈ g.nodes := by
        intro u hu
        exact snd_mem_nodes (mem_parentsOf.mp (List.mem_of_mem_filter hu))
      have hnd' : (acc ++ (g.parentsOf x).filter (fun p => decide (p ∉ acc))).Nodup := by
        rw [List.nodup_append]
        refine ⟨hnd, hnewnd, ?_⟩
        rw [List.disjoint_left]
        intro a ha hc
        exact hnewacc a hc ha
      have hqa' : ∀ t ∈ rest ++ (g.parentsOf x).filter (fun p => decide (p ∉ acc)),
          t ∈ acc ++ (g.parentsOf x).filter (fun p => decide (p ∉ acc)) := by
        intro t ht
        rcases List.mem_append.mp ht with h' | h'
        · exact List.mem_append.mpr (Or.inl (hqa t (List.mem_cons_of_mem _ h')))
        · exact List.mem_append.mpr (Or.inr h')
      have hclosed' : ∀ t ∈ acc ++ (g.parentsOf x).filter (fun p => decide (p ∉ acc)),
          t ∉ rest ++ (g.parentsOf x).filter (fun p => decide (p ∉ acc)) →
          ∀ p, (t, p) ∈ g.edges → p ∈ acc ++ (g.parentsOf x).filter (fun p => decide (p ∉ acc)) := by
        intro t ht htq p hp
        rcases List.mem_append.mp ht with h' | h'
        · by_cases hx : t = x
          · subst hx
            have hpp : p ∈ g.parentsOf t := mem_parentsOf.mpr hp
            by_cases hpa : p ∈ acc
            · exact List.mem_append.mpr (Or.inl hpa)
            · refine List.mem_append.mpr (Or.inr ?_)
              rw [List.mem_filter]
              exact ⟨hpp, by simpa using hpa⟩
          · have htrest : t ∉ rest := fun hc => htq (List.mem_append.mpr (Or.inl hc))
            have htold : t ∉ x :: rest := by
              intro hc
              rcases List.mem_cons.mp hc with h'' | h''
              · exact hx h''
              · exact htrest h''
            exact List.mem_append.mpr (Or.inl (hclosed t h' htold p hp))
        · exact absurd (List.mem_append.mpr (Or.inr h')) htq
      have hfuel' : (rest ++ (g.parentsOf x).filter (fun p => decide (p ∉ acc))).length +
          (g.nodes.filter (fun y => decide
            (y ∉ acc ++ (g.parentsOf x).filter (fun p => decide (p ∉ acc))))).length ≤ f := by
        have hcnt := cntOut_append g.nodes (nodes_nodup g) acc
          ((g.parentsOf x).filter (fun p => decide (p ∉ acc))) hnewnd hnewnodes hnewacc
        rw [List.length_append]
        simp only [List.length_cons] at hfuel
        omega
      obtain ⟨ha, hb, hc⟩ := ih _ _ hnd' hqa' hclosed' hfuel'
      exact ⟨ha, fun t ht => hb t (List.mem_append.mpr (Or.inl ht)), hc⟩

theorem closure_up_spec (g : Graph) (hg : g.edges.Nodup) (S : List TName) (hS : S.Nodup) :
    (closure_up g S).Nodup ∧
    (∀ t, t ∈ closure_up g S ↔ ∃ s ∈ S, Relation.ReflTransGen (stepRel g) s t) := by
  have hfuel : S.length + (g.nodes.filter (fun x => decide (x ∉ S))).length
      ≤ S.length + g.nodes.length := by
    have := List.length_filter_le (fun x => decide (x ∉ S)) g.nodes
    omega
  have hclosed0 : ∀ t ∈ S, t ∉ S → ∀ p, (t, p) ∈ g.edges → p ∈ S := by
    intro t ht htn
    exact absurd ht htn
  obtain ⟨hnd, hsup, hcl⟩ :=
    closureGo_closed g hg (S.length + g.nodes.length) S S hS (fun t ht => ht) hclosed0 hfuel
  refine ⟨hnd, ?_⟩
  intro t
  constructor
  · intro ht
    refine closureGo_sound g (fun u => ∃ s ∈ S, Relation.ReflTransGen (stepRel g) s u)
      ?_ _ _ _ ?_ ?_ t ht
    · intro a b ⟨s, hs, hrt⟩ he
      exact ⟨s, hs, hrt.tail he⟩
    · intro u hu
      exact ⟨u, hu, Relation.ReflTransGen.refl⟩
    · intro u hu
      exact ⟨u, hu, Relation.ReflTransGen.refl⟩
  · rintro ⟨s, hs, hrt⟩
    induction hrt with
    | refl => exact hsup s hs
    | tail _ hstep ih2 => exact hcl _ ih2 _ hstep

/-! ## Kahn loop: indeg dictionary lemmas -/

theorem alookup_aupdate_found :
    ∀ (l : List (TName × Int)) (k : TName) (d val : Int), alookup l k = some d →
      ∀ t, alookup (aupdate l k val) t = if t = k then some val else alookup l t := by
  intro l
  induction l with
  | nil => intro k d val h; cases h
  | cons p tl ih =>
    obtain ⟨a, v⟩ := p
    intro k d val h t
    by_cases hak : a = k
    · subst hak
      simp only [aupdate, if_pos rfl]
      by_cases hat : a = t
      · subst hat
        simp [alookup]
      · have hta : ¬ t = a := fun hc => hat hc.symm
        simp [alookup, hat, hta]
    · have h' : alookup tl k = some d := by
        have := h
        rw [alookup, if_neg hak] at this
        exact this
      simp only [aupdate, if_neg hak]
      by_cases hat : a = t
      · subst hat
        rw [if_neg hak]
        simp [alookup]
      · simp only [alookup, if_neg hat]
        rw [ih k d val h' t]

theorem alookup_map_value (w : TName → Int) :
    ∀ (R : List TName) (t : TName),
      alookup (R.map (fun x => (x, w x))) t = if t ∈ R then some (w t) else none := by
  intro R
  induction R with
  | nil => intro t; simp [alookup]
  | cons a R ih =>
    intro t
    simp only [List.map_cons, alookup]
    by_cases hat : a = t
    · subst hat
      rw [if_pos rfl, if_pos (List.mem_cons_self _ _)]
    · rw [if_neg hat, ih t]
      have hmem : (t ∈ a :: R) ↔ (t ∈ R) := by
        constructor
        · intro h
          rcases List.mem_cons.mp h with h' | h'
          · exact absurd h'.symm hat
          · exact h'
        · exact List.mem_cons_of_mem a
      rw [if_congr hmem rfl rfl]

theorem processChildren_spec (R : List TName) :
    ∀ (cs : List TName) (ind : List (TName × Int)) (v : TName → Int),
      cs.Nodup →
      (∀ t, alookup ind t = if t ∈ R then some (v t) else none) →
      (∀ t, alookup (processChildren ind cs).1 t
          = if t ∈ R then some (v t - (if t ∈ cs then 1 else 0)) else none) ∧
      (∀ c, c ∈ (processChildren ind cs).2 ↔ (c ∈ cs ∧ c ∈ R ∧ v c = 1)) ∧
      (processChildren ind cs).2.Nodup := by
  intro cs
  induction cs with
  | nil =>
    intro ind v _ hind
    refine ⟨?_, ?_, List.nodup_nil⟩
    · intro t
      rw [show processChildren ind [] = (ind, []) from rfl]
      rw [hind t]
      by_cases htR : t ∈ R
      · simp [htR]
      · simp [htR]
    · intro c
      simp [processChildren]
  | cons c cs ih =>
    intro ind v hnd hind
    obtain ⟨hc, hnd'⟩ := List.nodup_cons.mp hnd
    cases hl : alookup ind c with
    | none =>
      have hcR : c ∉ R := by
        intro hcR
        have h0 := hind c
        rw [if_pos hcR, hl] at h0
        cases h0
      have heq : processChildren ind (c :: cs) = processChildren ind cs := by
        rw [processChildren, hl]
      rw [heq]
      obtain ⟨h1, h2, h3⟩ := ih ind v hnd' hind
      refine ⟨?_, ?_, h3⟩
      · intro t
        rw [h1 t]
        by_cases htR : t ∈ R
        · rw [if_pos htR, if_pos htR]
          have hmem : (t ∈ c :: cs) ↔ (t ∈ cs) := by
            constructor
            · intro h
              rcases List.mem_cons.mp h with rfl | h'
              · exact absurd htR hcR
              · exact h'
            · exact List.mem_cons_of_mem c
          rw [if_congr hmem rfl rfl]
        · rw [if_neg htR, if_neg htR]
      · intro c'
        rw [h2 c']
        constructor
        · rintro ⟨h', hR, hv⟩
          exact ⟨List.mem_cons_of_mem _ h', hR, hv⟩
        · rintro ⟨h', hR, hv⟩
          rcases List.mem_cons.mp h' with rfl | h''
          · exact absurd hR hcR
          · exact ⟨h'', hR, hv⟩
    | some d =>
      have hcR : c ∈ R := by
        by_contra hcR
        have h0 := hind c
        rw [if_neg hcR, hl] at h0
        cases h0
      have hd : d = v c := by
        have h0 := hind c
        rw [if_pos hcR, hl] at h0
        injection h0
      have hind' : ∀ t, alookup (aupdate ind c (d - 1)) t
          = if t ∈ R then some (if t = c then v c - 1 else v t) else none := by
        intro t
        rw [alookup_aupdate_found ind c d (d - 1) hl t]
        by_cases htc : t = c
        · subst htc
          rw [if_pos rfl, if_pos hcR, if_pos rfl, hd]
        · rw [if_neg htc, hind t]
          by_cases htR : t ∈ R
          · rw [if_pos htR, if_pos htR, if_neg htc]
          · rw [if_neg htR, if_neg htR]
      obtain ⟨h1, h2, h3⟩ := ih (aupdate ind c (d - 1)) (fun t => if t = c then v c - 1 else v t)
        hnd' hind'
      have hznotc : ∀ c', c' ∈ (processChildren (aupdate ind c (d - 1)) cs).2 → c' ≠ c := by
        intro c' hc' hcc
        subst hcc
        exact hc ((h2 c').mp hc').1
      by_cases hz : d - 1 = 0
      · have heq : processChildren ind (c :: cs)
            = ((processChildren (aupdate ind c (d - 1)) cs).1,
                c :: (processChildren (aupdate ind c (d - 1)) cs).2) := by
          rw [processChildren, hl]
          simp only [if_pos hz]
        rw [heq]
        have hvc1 : v c = 1 := by omega
        refine ⟨?_, ?_, ?_⟩
        · intro t
          rw [h1 t]
          by_cases htR : t ∈ R
          · rw [if_pos htR, if_pos htR]
            by_cases htc : t = c
            · subst htc
              have hc1 : (t ∈ t :: cs) := List.mem_cons_self _ _
              rw [if_pos hc1, if_pos rfl]
              have hcs : (t ∈ cs) = False := by simp [hc]
              rw [if_neg (by simp [hc] : ¬ t ∈ cs)]
              simp
            · rw [if_neg htc]
              have hmem : (t ∈ c :: cs) ↔ (t ∈ cs) := by
                constructor
                · intro h
                  rcases List.mem_cons.mp h with h' | h'
                  · exact absurd h' htc
                  · exact h'
                · exact List.mem_cons_of_mem c
              rw [if_congr hmem rfl rfl]
          · rw [if_neg htR, if_neg htR]
        · intro c'
          simp only [List.mem_cons]
          constructor
          · rintro (rfl | h')
            · exact ⟨Or.inl rfl, hcR, hvc1⟩
            · obtain ⟨hm, hR, hv⟩ := (h2 c').mp h'
              have hne : c' ≠ c := hznotc c' h'
              rw [if_neg hne] at hv
              exact ⟨Or.inr hm, hR, hv⟩
          · rintro ⟨hm, hR, hv⟩
            rcases hm with rfl | h'
            · exact Or.inl rfl
            · right
              refine (h2 c').mpr ⟨h', hR, ?_⟩
              have hne : c' ≠ c := fun hcc => hc (hcc ▸ h')
              rw [if_neg hne]
              exact hv
        · rw [List.nodup_cons]
          exact ⟨fun hcc => (hznotc c hcc) rfl, h3⟩
      · have heq : processChildren ind (c :: cs)
            = processChildren (aupdate ind c (d - 1)) cs := by
          rw [processChildren, hl]
          simp only [if_neg hz]
        rw [heq]
        have hvc1 : ¬ v c = 1 := by omega
        refine ⟨?_, ?_, h3⟩
        · intro t
          rw [h1 t]
          by_cases htR : t ∈ R
          · rw [if_pos htR, if_pos htR]
            by_cases htc : t = c
            · subst htc
              rw [if_pos rfl, if_pos (List.mem_cons_self _ _)]
              rw [if_neg (by simp [hc] : ¬ t ∈ cs)]
              simp
            · rw [if_neg htc]
              have hmem : (t ∈ c :: cs) ↔ (t ∈ cs) := by
                constructor
                · intro h
                  rcases List.mem_cons.mp h with h' | h'
                  · exact absurd h' htc
                  · exact h'
                · exact List.mem_cons_of_mem c
              rw [if_congr hmem rfl rfl]
          · rw [if_neg htR, if_neg htR]
        · intro c'
          rw [h2 c']
          constructor
          · rintro ⟨hm, hR, hv⟩
            have hne : c' ≠ c := fun hcc => hc (hcc ▸ hm)
            rw [if_neg hne] at hv
            exact ⟨List.mem_cons_of_mem _ hm, hR, hv⟩
          · rintro ⟨hm, hR, hv⟩
            rcases List.mem_cons.mp hm with rfl | h'
            · exact absurd hv hvc1
            · have hne : c' ≠ c := fun hcc => hc (hcc ▸ h')
              refine ⟨h', hR, ?_⟩
              rw [if_neg hne]
              exact hv

/-! ## Kahn loop: the invariant and the master induction -/

theorem cem_le_cntR (g : Graph) (R E : List TName) (hER : ∀ x, x ∈ E → x ∈ R) (t : TName) :
    cem g t E ≤ cntR g R t := by
  unfold cem cntR
  refine List.Sublist.length_le (List.monotone_filter_right _ ?_)
  intro a ha
  simp only [decide_eq_true_eq] at ha ⊢
  exact hER a ha

theorem cem_eq_cntR_iff (g : Graph) (R E : List TName) (hER : ∀ x, x ∈ E → x ∈ R) (t : TName) :
    cem g t E = cntR g R t ↔ ∀ p ∈ g.parentsOf t, p ∈ R → p ∈ E := by
  constructor
  · intro heq p hp hpR
    have hfeq : (g.parentsOf t).filter (fun p => decide (p ∈ E))
        = (g.parentsOf t).filter (fun p => decide (p ∈ R)) := by
      refine filter_eq_of_imp_of_length _ ?_ heq
      intro x hx
      simp only [decide_eq_true_eq] at hx ⊢
      exact hER x hx
    have hmem : p ∈ (g.parentsOf t).filter (fun p => decide (p ∈ R)) :=
      List.mem_filter.mpr ⟨hp, by simpa using hpR⟩
    rw [← hfeq] at hmem
    have := (List.mem_filter.mp hmem).2
    simpa using this
  · intro hsub
    unfold cem cntR
    congr 1
    refine List.filter_congr ?_
    intro p hp
    by_cases hpR : p ∈ R
    · simp [hpR, hsub p hp hpR]
    · have hpE : p ∉ E := fun hc => hpR (hER p hc)
      simp [hpR, hpE]

theorem cem_append_singleton (g : Graph) (hg : g.edges.Nodup) (t n : TName) (E : List TName)
    (hn : n ∉ E) :
    cem g t (E ++ [n]) = cem g t E + (if (t, n) ∈ g.edges then 1 else 0) := by
  unfold cem
  rw [length_filter_mem_append_singleton (g.parentsOf t) E n hn (parentsOf_nodup hg t)]
  congr 1
  rw [if_congr mem_parentsOf rfl rfl]


theorem kahn_master (g : Graph) (R : List TName) (hg : g.edges.Nodup)
    (hns : ∀ e ∈ g.edges, e.1 ≠ e.2) (hR : R.Nodup) :
    ∀ (fuel : Nat) (q : List TName) (ind : List (TName × Int)) (E : List TName),
      KState g R q ind E → R.length ≤ fuel + E.length →
      ∃ r ind2, kahnLoop g fuel q ind = q ++ r ∧
        KState g R [] ind2 (E ++ (q ++ r)) := by
  intro fuel
  induction fuel with
  | zero =>
    intro q ind E st hfuel
    have hlen : (E ++ q).length ≤ R.length :=
      ((st.nd).subperm (fun a ha => st.sub a ha)).length_le
    rw [List.length_append] at hlen
    have hq : q = [] := List.length_eq_zero.mp (by omega)
    subst hq
    refine ⟨[], ind, rfl, ?_⟩
    simpa using st
  | succ f ih =>
    intro q ind E st hfuel
    cases q with
    | nil =>
      refine ⟨[], ind, rfl, ?_⟩
      simpa using st
    | cons n rest =>
      have hndE : (E ++ n :: rest).Nodup := st.nd
      have hnE : n ∉ E := by
        rw [List.nodup_append] at hndE
        exact fun hc => hndE.2.2 hc (List.mem_cons_self _ _)
      have hnrest : n ∉ rest := by
        rw [List.nodup_append] at hndE
        exact (List.nodup_cons.mp hndE.2.1).1
      have hnR : n ∈ R := st.sub n (List.mem_append.mpr (Or.inr (List.mem_cons_self _ _)))
      have hER : ∀ x, x ∈ E → x ∈ R := fun x hx => st.sub x (List.mem_append.mpr (Or.inl hx))
      have hcsnd : ((g.childrenOf n).insertionSort strLe).Nodup :=
        ((List.perm_insertionSort strLe _).nodup_iff).mpr (childrenOf_nodup hg n)
      have hmemcs : ∀ c, c ∈ (g.childrenOf n).insertionSort strLe ↔ (c, n) ∈ g.edges := by
        intro c
        rw [List.mem_insertionSort, mem_childrenOf]
      obtain ⟨h1, h2, h3⟩ := processChildren_spec R ((g.childrenOf n).insertionSort strLe) ind
        (fun t => (cntR g R t : Int) - (cem g t E : Int)) hcsnd st.ind_spec
      have hvn : cem g n E = cntR g R n := (st.zero_iff n hnR).mp
        (List.mem_append.mpr (Or.inr (List.mem_cons_self _ _)))
      have hparn : ∀ p ∈ g.parentsOf n, p ∈ R → p ∈ E :=
        (cem_eq_cntR_iff g R E hER n).mp hvn
      have hfresh : ∀ z ∈ (processChildren ind ((g.childrenOf n).insertionSort strLe)).2,
          z ∈ R ∧ z ∉ E ++ n :: rest ∧ (z, n) ∈ g.edges := by
        intro z hz
        obtain ⟨hzcs, hzR, hzv⟩ := (h2 z).mp hz
        refine ⟨hzR, ?_, (hmemcs z).mp hzcs⟩
        intro hc
        have := (st.zero_iff z hzR).mp hc
        omega
      -- the new state
      have hE'q' : KState g R (rest ++ (processChildren ind ((g.childrenOf n).insertionSort strLe)).2)
          (processChildren ind ((g.childrenOf n).insertionSort strLe)).1 (E ++ [n]) := by
        set zs := (processChildren ind ((g.childrenOf n).insertionSort strLe)).2 with hzs
        have hweq : (E ++ [n]) ++ (rest ++ zs) = (E ++ n :: rest) ++ zs := by
          simp
        constructor
        · -- nd
          rw [hweq]
          rw [List.nodup_append]
          refine ⟨hndE, h3, ?_⟩
          rw [List.disjoint_left]
          intro a ha hc
          exact ((hfresh a hc).2.1) ha
        · -- sub
          intro t ht
          rw [hweq] at ht
          rcases List.mem_append.mp ht with h' | h'
          · exact st.sub t h'
          · exact (hfresh t h').1
        · -- ind_spec
          intro t
          rw [h1 t]
          by_cases htR : t ∈ R
          · rw [if_pos htR, if_pos htR]
            have hc : cem g t (E ++ [n]) = cem g t E
                + (if (t, n) ∈ g.edges then 1 else 0) := cem_append_singleton g hg t n E hnE
            have hcs : (t ∈ (g.childrenOf n).insertionSort strLe) ↔ ((t, n) ∈ g.edges) :=
              hmemcs t
            by_cases hedge : (t, n) ∈ g.edges
            · rw [if_pos (hcs.mpr hedge)]
              rw [if_pos hedge] at hc
              rw [hc]
              push_cast
              ring
            · rw [if_neg (fun hcc => hedge (hcs.mp hcc))]
              rw [if_neg hedge] at hc
              rw [hc]
              push_cast
              ring
          · rw [if_neg htR, if_neg htR]
        · -- zero_iff
          intro t htR
          rw [hweq]
          have hc : cem g t (E ++ [n]) = cem g t E
              + (if (t, n) ∈ g.edges then 1 else 0) := cem_append_singleton g hg t n E hnE
          by_cases htn : t = n
          · subst htn
            have hnn : (t, t) ∉ g.edges := fun hcc => hns (t, t) hcc rfl
            rw [if_neg hnn] at hc
            constructor
            · intro _
              omega
            · intro _
              exact List.mem_append.mpr (Or.inl (List.mem_append.mpr
                (Or.inr (List.mem_cons_self _ _))))
          · by_cases hedge : (t, n) ∈ g.edges
            · rw [if_pos hedge] at hc
              have htEq : t ∉ E ++ n :: rest := by
                intro hcmem
                have heq0 := (st.zero_iff t htR).mp hcmem
                have hsub := (cem_eq_cntR_iff g R E hER t).mp heq0
                exact hnE (hsub n (mem_parentsOf.mpr hedge) hnR)
              have hle : cem g t E ≤ cntR g R t := cem_le_cntR g R E hER t
              constructor
              · intro hmem
                rcases List.mem_append.mp hmem with h' | h'
                · exact absurd h' htEq
                · have := ((h2 t).mp h').2.2
                  omega
              · intro heq
                refine List.mem_append.mpr (Or.inr ?_)
                refine (h2 t).mpr ⟨(hmemcs t).mpr hedge, htR, ?_⟩
                omega
            · rw [if_neg hedge] at hc
              have hnotzs : t ∉ zs := by
                intro hcc
                exact hedge (hfresh t hcc).2.2
              rw [hc, Nat.add_zero]
              rw [← st.zero_iff t htR]
              constructor
              · intro hmem
                rcases List.mem_append.mp hmem with h' | h'
                · exact h'
                · exact absurd h' hnotzs
              · intro hmem
                exact List.mem_append.mpr (Or.inl hmem)
        · -- emit_ord
          intro c hcmem p hedge hpR
          rcases List.mem_append.mp hcmem with hcE | hcn
          · obtain ⟨hpE, hlt⟩ := st.emit_ord c hcE p hedge hpR
            refine ⟨List.mem_append.mpr (Or.inl hpE), ?_⟩
            rw [posIn_append_left [n] hpE, posIn_append_left [n] hcE]
            exact hlt
          · have hcn' : c = n := List.mem_singleton.mp hcn
            subst hcn'
            have hpE : p ∈ E := hparn p (mem_parentsOf.mpr hedge) hpR
            refine ⟨List.mem_append.mpr (Or.inl hpE), ?_⟩
            rw [posIn_append_left [c] hpE, posIn_append_self hnE]
            exact posIn_lt_length hpE
      have hfuel' : R.length ≤ f + (E ++ [n]).length := by
        rw [List.length_append, List.length_singleton]
        omega
      obtain ⟨r', ind2, hloop, stFin⟩ := ih _ _ _ hE'q' hfuel'
      refine ⟨(processChildren ind ((g.childrenOf n).insertionSort strLe)).2 ++ r', ind2, ?_, ?_⟩
      · rw [kahnLoop]
        rw [hloop]
        simp
      · have heq : (E ++ [n]) ++ ((rest ++
            (processChildren ind ((g.childrenOf n).insertionSort strLe)).2) ++ r')
            = E ++ ((n :: rest) ++
              ((processChildren ind ((g.childrenOf n).insertionSort strLe)).2 ++ r')) := by
          simp
        exact heq ▸ stFin

/-! ## Kahn loop: initial state and top-level characterization -/

theorem kahnRoots_mem (g : Graph) (R : List TName) :
    ∀ t, t ∈ kahnRoots g R ↔ (t ∈ R ∧ cntR g R t = 0) := by
  intro t
  unfold kahnRoots kahnIndeg
  rw [List.mem_insertionSort, List.mem_map]
  constructor
  · rintro ⟨p, hmem, hfst⟩
    obtain ⟨hmap, hv⟩ := List.mem_filter.mp hmem
    obtain ⟨x, hxR, hx⟩ := List.mem_map.mp hmap
    subst hx
    simp only [decide_eq_true_eq] at hv
    simp only at hfst
    subst hfst
    refine ⟨hxR, ?_⟩
    omega
  · rintro ⟨htR, hcnt⟩
    refine ⟨(t, (cntR g R t : Int)), List.mem_filter.mpr ⟨List.mem_map.mpr ⟨t, htR, rfl⟩, ?_⟩, rfl⟩
    simp [hcnt]

theorem kahnRoots_nodup (g : Graph) (R : List TName) (hR : R.Nodup) : (kahnRoots g R).Nodup := by
  unfold kahnRoots kahnIndeg
  refine ((List.perm_insertionSort strLe _).nodup_iff).mpr ?_
  refine List.Nodup.map_on ?_ ?_
  · rintro ⟨a, v⟩ hx ⟨a', v'⟩ hy hfst
    obtain ⟨x, _, hx2⟩ := List.mem_map.mp (List.mem_filter.mp hx).1
    obtain ⟨x', _, hx2'⟩ := List.mem_map.mp (List.mem_filter.mp hy).1
    simp only at hfst
    have e1 : x = a := congrArg Prod.fst hx2
    have e2 : (cntR g R x : Int) = v := congrArg Prod.snd hx2
    have e3 : x' = a' := congrArg Prod.fst hx2'
    have e4 : (cntR g R x' : Int) = v' := congrArg Prod.snd hx2'
    subst e1; subst e3; subst hfst
    rw [← e2, ← e4]
  · refine List.Nodup.filter _ ?_
    refine List.Nodup.map_on ?_ hR
    intro x _ y _ hxy
    exact congrArg Prod.fst hxy

theorem kahnOrder_master (g : Graph) (R : List TName) (hg : g.edges.Nodup)
    (hns : ∀ e ∈ g.edges, e.1 ≠ e.2) (hR : R.Nodup) :
    (∃ r, kahnOrder g R = kahnRoots g R ++ r) ∧
    (kahnOrder g R).Nodup ∧
    (∀ t ∈ kahnOrder g R, t ∈ R) ∧
    (∀ t ∈ R, (t ∈ kahnOrder g R ↔ cem g t (kahnOrder g R) = cntR g R t)) ∧
    (∀ c ∈ kahnOrder g R, ∀ p, (c, p) ∈ g.edges → p ∈ R →
      p ∈ kahnOrder g R ∧ posIn p (kahnOrder g R) < posIn c (kahnOrder g R)) := by
  have hst : KState g R (kahnRoots g R) (kahnIndeg g R) [] := by
    constructor
    · simpa using kahnRoots_nodup g R hR
    · intro t ht
      simp only [List.nil_append] at ht
      exact ((kahnRoots_mem g R t).mp ht).1
    · intro t
      unfold kahnIndeg
      rw [alookup_map_value (fun t => (cntR g R t : Int)) R t]
      have hc0 : cem g t [] = 0 := by simp [cem]
      by_cases htR : t ∈ R
      · rw [if_pos htR, if_pos htR, hc0]
        norm_num
      · rw [if_neg htR, if_neg htR]
    · intro t htR
      simp only [List.nil_append]
      rw [kahnRoots_mem g R t]
      have hc0 : cem g t [] = 0 := by simp [cem]
      rw [hc0]
      constructor
      · rintro ⟨_, h0⟩
        omega
      · intro h0
        exact ⟨htR, by omega⟩
    · intro c hc
      cases hc
  obtain ⟨r, ind2, hloop, stFin⟩ :=
    kahn_master g R hg hns hR R.length (kahnRoots g R) (kahnIndeg g R) [] hst (by simp)
  have horder : kahnOrder g R = kahnRoots g R ++ r := hloop
  have hE : ([] : List TName) ++ (kahnRoots g R ++ r) = kahnOrder g R := by
    rw [horder, List.nil_append]
  rw [hE] at stFin
  refine ⟨⟨r, horder⟩, ?_, ?_, ?_, ?_⟩
  · have := stFin.nd
    simpa using this
  · intro t ht
    exact stFin.sub t (by simpa using ht)
  · intro t htR
    have := stFin.zero_iff t htR
    simpa using this
  · intro c hc p hedge hpR
    exact stFin.emit_ord c hc p hedge hpR

/-! ## Cycle extraction -/

theorem cycle_of_parents_inside (g : Graph) (R M : List TName)
    (hMR : ∀ t ∈ M, t ∈ R) (hM : M ≠ [])
    (hpar : ∀ t ∈ M, ∃ p, p ∈ M ∧ (t, p) ∈ g.edges) :
    ∃ t ∈ R, Relation.TransGen (stepIn g R) t t := by
  classical
  obtain ⟨m0, hm0⟩ := List.exists_mem_of_ne_nil M hM
  set F : TName → TName :=
    fun t => if h : ∃ p, p ∈ M ∧ (t, p) ∈ g.edges then h.choose else t with hF0
  have hF : ∀ t ∈ M, F t ∈ M ∧ (t, F t) ∈ g.edges := by
    intro t ht
    have h : ∃ p, p ∈ M ∧ (t, p) ∈ g.edges := hpar t ht
    rw [hF0]
    simp only [dif_pos h]
    exact h.choose_spec
  have hseqM : ∀ k, F^[k] m0 ∈ M := by
    intro k
    induction k with
    | zero => simpa using hm0
    | succ k ih =>
      rw [Function.iterate_succ_apply' F k m0]
      exact (hF _ ih).1
  have hstep : ∀ k, stepIn g R (F^[k] m0) (F^[k + 1] m0) := by
    intro k
    rw [Function.iterate_succ_apply' F k m0]
    exact ⟨(hF _ (hseqM k)).2, hMR _ (hseqM k), hMR _ ((hF _ (hseqM k)).1)⟩
  have hchain : ∀ j i, i < j → Relation.TransGen (stepIn g R) (F^[i] m0) (F^[j] m0) := by
    intro j
    induction j with
    | zero => intro i hi; omega
    | succ j ihj =>
      intro i hi
      by_cases hji : i = j
      · subst hji
        exact Relation.TransGen.single (hstep i)
      · have hij : i < j := by omega
        exact (ihj i hij).tail (hstep j)
  have hcard : M.toFinset.card < (Finset.range (M.length + 1)).card := by
    rw [Finset.card_range]
    exact Nat.lt_succ_of_le (List.toFinset_card_le M)
  obtain ⟨i, _, j, _, hij, heq⟩ := Finset.exists_ne_map_eq_of_card_lt_of_maps_to hcard
    (fun k _ => List.mem_toFinset.mpr (hseqM k))
  rcases Nat.lt_or_ge i j with h | h
  · have hc := hchain j i h
    rw [← heq] at hc
    exact ⟨F^[i] m0, hMR _ (hseqM i), hc⟩
  · have hji : j < i := by omega
    have hc := hchain i j hji
    rw [heq] at hc
    exact ⟨F^[j] m0, hMR _ (hseqM j), hc⟩

/-! ## toposort characterization -/

theorem kahn_complete (g : Graph) (R : List TName) (hg : g.edges.Nodup)
    (hns : ∀ e ∈ g.edges, e.1 ≠ e.2) (hR : R.Nodup)
    (hacyc : ¬ ∃ t ∈ R, Relation.TransGen (stepIn g R) t t) :
    ∀ t ∈ R, t ∈ kahnOrder g R := by
  by_contra hcon
  push_neg at hcon
  obtain ⟨t0, ht0R, ht0O⟩ := hcon
  obtain ⟨_, _, hsubO, hziff, _⟩ := kahnOrder_master g R hg hns hR
  have hMR : ∀ t ∈ R.filter (fun t => decide (t ∉ kahnOrder g R)), t ∈ R :=
    fun t ht => (List.mem_filter.mp ht).1
  have hMne : R.filter (fun t => decide (t ∉ kahnOrder g R)) ≠ [] :=
    List.ne_nil_of_mem (List.mem_filter.mpr ⟨ht0R, by simpa using ht0O⟩)
  have hpar : ∀ t ∈ R.filter (fun t => decide (t ∉ kahnOrder g R)),
      ∃ p, p ∈ R.filter (fun t => decide (t ∉ kahnOrder g R)) ∧ (t, p) ∈ g.edges := by
    intro m hm
    have hmR := hMR m hm
    have hmO : m ∉ kahnOrder g R := by simpa using (List.mem_filter.mp hm).2
    have hne : ¬ (cem g m (kahnOrder g R) = cntR g R m) :=
      fun hc => hmO ((hziff m hmR).mpr hc)
    have hnotall : ¬ ∀ p ∈ g.parentsOf m, p ∈ R → p ∈ kahnOrder g R := by
      intro hall
      exact hne ((cem_eq_cntR_iff g R (kahnOrder g R) (fun x hx => hsubO x hx) m).mpr hall)
    push_neg at hnotall
    obtain ⟨p, hp, hpR, hpO⟩ := hnotall
    exact ⟨p, List.mem_filter.mpr ⟨hpR, by simpa using hpO⟩, mem_parentsOf.mp hp⟩
  exact hacyc (cycle_of_parents_inside g R _ hMR hMne hpar)

theorem toposort_acyclic_spec (g : Graph) (hg : g.edges.Nodup)
    (hns : ∀ e ∈ g.edges, e.1 ≠ e.2) (R : List TName) (hR : R.Nodup)
    (hacyc : ¬ ∃ t ∈ R, Relation.TransGen (stepIn g R) t t) :
    toposort g R = Except.ok (kahnOrder g R) ∧
    (kahnOrder g R).Nodup ∧
    (∀ t, t ∈ kahnOrder g R ↔ t ∈ R) ∧
    (∀ c ∈ kahnOrder g R, ∀ p, (c, p) ∈ g.edges → p ∈ R →
      p ∈ kahnOrder g R ∧ posIn p (kahnOrder g R) < posIn c (kahnOrder g R)) := by
  obtain ⟨_, hnd, hsub, _, hord⟩ := kahnOrder_master g R hg hns hR
  have hcomp := kahn_complete g R hg hns hR hacyc
  have hmem : ∀ t, t ∈ kahnOrder g R ↔ t ∈ R :=
    fun t => ⟨fun h => hsub t h, fun h => hcomp t h⟩
  have hperm : List.Perm (kahnOrder g R) R :=
    (List.perm_ext_iff_of_nodup hnd hR).mpr hmem
  refine ⟨?_, hnd, hmem, hord⟩
  unfold toposort
  rw [if_pos hperm.length_eq]

theorem toposort_error_of_cycle (g : Graph) (hg : g.edges.Nodup)
    (hns : ∀ e ∈ g.edges, e.1 ≠ e.2) (R : List TName) (hR : R.Nodup)
    (hcyc : ∃ t ∈ R, Relation.TransGen (stepIn g R) t t) :
    toposort g R
      = Except.error ((R.filter (fun t => decide (t ∉ kahnOrder g R))).insertionSort strLe) := by
  obtain ⟨_, hnd, hsub, _, hord⟩ := kahnOrder_master g R hg hns hR
  have hlen : ¬ (kahnOrder g R).length = R.length := by
    intro hlen
    have hRO : ∀ t ∈ R, t ∈ kahnOrder g R := by
      intro t htR
      by_contra htO
      have hnd2 : (t :: kahnOrder g R).Nodup := List.nodup_cons.mpr ⟨htO, hnd⟩
      have hsub2 : t :: kahnOrder g R ⊆ R := by
        intro a ha
        rcases List.mem_cons.mp ha with rfl | h'
        · exact htR
        · exact hsub a h'
      have hle := (hnd2.subperm hsub2).length_le
      simp only [List.length_cons] at hle
      omega
    have hdec : ∀ a b, Relation.TransGen (stepIn g R) a b →
        posIn b (kahnOrder g R) < posIn a (kahnOrder g R) := by
      intro a b h
      induction h with
      | single h1 =>
        obtain ⟨he, haR, hbR⟩ := h1
        exact (hord a (hRO a haR) _ he hbR).2
      | tail _ h2 ih =>
        obtain ⟨he, hbR, hcR⟩ := h2
        have h3 := (hord _ (hRO _ hbR) _ he hcR).2
        omega
    obtain ⟨t, _, hcyc'⟩ := hcyc
    exact absurd (hdec t t hcyc') (lt_irrefl _)
  unfold toposort
  rw [if_neg hlen]

/-! ## Claim theorems on the dependency graph -/

theorem no_self_of_acyclic (g : Graph)
    (hacyc : ∀ t, ¬ Relation.TransGen (stepRel g) t t) :
    ∀ e ∈ g.edges, e.1 ≠ e.2 := by
  rintro ⟨a, b⟩ he hc
  simp only at hc
  subst hc
  exact hacyc a (Relation.TransGen.single he)

theorem stepIn_cycle_to_stepRel (g : Graph) (R : List TName)
    (hacyc : ∀ t, ¬ Relation.TransGen (stepRel g) t t) :
    ¬ ∃ t ∈ R, Relation.TransGen (stepIn g R) t t := by
  rintro ⟨t, _, hcyc⟩
  exact hacyc t (Relation.TransGen.mono (fun a b hab => hab.1) hcyc)

theorem resolveAll_ok (g : Graph) :
    ∀ (sel : List String), (∀ n ∈ sel, ∃ q, resolve g n = Except.ok q) →
      ∃ rs, resolveAll g sel = Except.ok rs := by
  intro sel
  induction sel with
  | nil => intro _; exact ⟨[], rfl⟩
  | cons n ns ih =>
    intro h
    obtain ⟨q, hq⟩ := h n (List.mem_cons_self _ _)
    obtain ⟨rs, hrs⟩ := ih (fun m hm => h m (List.mem_cons_of_mem _ hm))
    refine ⟨q :: rs, ?_⟩
    rw [resolveAll, hq, hrs]

/-- C1: on an acyclic FK graph, sorted_tables over a nonempty selection of
resolvable names succeeds and returns exactly the resolved tables and their
transitive ancestors, each exactly once, with every parent placed before
every child it has inside the result. -/
theorem claim_C1_sorted_tables (g : Graph) (hg : g.edges.Nodup)
    (hacyc : ∀ t, ¬ Relation.TransGen (stepRel g) t t)
    (sel : List String) (hne : sel ≠ [])
    (hres : ∀ n ∈ sel, ∃ q, resolve g n = Except.ok q) :
    ∃ rs L, resolveAll g sel = Except.ok rs ∧
      sorted_tables g (some sel) = Except.ok L ∧
      L.Nodup ∧
      (∀ t, t ∈ L ↔ ∃ s ∈ rs, Relation.ReflTransGen (stepRel g) s t) ∧
      (∀ c p, (c, p) ∈ g.edges → c ∈ L → p ∈ L → posIn p L < posIn c L) := by
  have hns : ∀ e ∈ g.edges, e.1 ≠ e.2 := no_self_of_acyclic g hacyc
  cases sel with
  | nil => exact absurd rfl hne
  | cons n ns =>
    obtain ⟨rs, hrs⟩ := resolveAll_ok g (n :: ns) hres
    obtain ⟨hCnd, hCmem⟩ := closure_up_spec g hg rs.dedup (List.nodup_dedup rs)
    have hacycIn := stepIn_cycle_to_stepRel g (closure_up g rs.dedup) hacyc
    obtain ⟨htopo, hLnd, hLmem, hLord⟩ :=
      toposort_acyclic_spec g hg hns (closure_up g rs.dedup) hCnd hacycIn
    refine ⟨rs, kahnOrder g (closure_up g rs.dedup), hrs, ?_, hLnd, ?_, ?_⟩
    · show (match resolveAll g (n :: ns) with
        | Except.error e => Except.error (SortErr.nameErr e)
        | Except.ok selList =>
          match toposort g (closure_up g selList.dedup) with
          | Except.error l => Except.error (SortErr.cycle l)
          | Except.ok order => Except.ok order)
        = Except.ok (kahnOrder g (closure_up g rs.dedup))
      rw [hrs]
      show (match toposort g (closure_up g rs.dedup) with
        | Except.error l => Except.error (SortErr.cycle l)
        | Except.ok order => Except.ok order)
        = Except.ok (kahnOrder g (closure_up g rs.dedup))
      rw [htopo]
    · intro t
      rw [hLmem t, hCmem t]
      constructor
      · rintro ⟨s, hs, hrt⟩
        exact ⟨s, List.mem_dedup.mp hs, hrt⟩
      · rintro ⟨s, hs, hrt⟩
        exact ⟨s, List.mem_dedup.mpr hs, hrt⟩
    · intro c p hedge hcL hpL
      exact (hLord c hcL p hedge ((hLmem p).mp hpL)).2


theorem acyclic_of_sink_parents (g : Graph)
    (hsink : ∀ e ∈ g.edges, ∀ e2 ∈ g.edges, e.2 ≠ e2.1)
    (hns : ∀ e ∈ g.edges, e.1 ≠ e.2) :
    ∀ t, ¬ Relation.TransGen (stepRel g) t t := by
  intro t h
  obtain ⟨b, hb, hrt⟩ := (Relation.TransGen.head'_iff).mp h
  rcases Relation.ReflTransGen.cases_head hrt with heq | ⟨c, hc, _⟩
  · rw [heq] at hb
    exact hns (t, t) hb rfl
  · exact hsink (t, b) hb (b, c) hc rfl

/-- C1 witness: selection [b] on the graph with edge s.b to s.a, via the
theorem. -/
theorem claim_C1_witness :
    ∃ rs L, resolveAll gChild ["b"] = Except.ok rs ∧
      sorted_tables gChild (some ["b"]) = Except.ok L ∧
      L.Nodup ∧
      (∀ t, t ∈ L ↔ ∃ s ∈ rs, Relation.ReflTransGen (stepRel gChild) s t) ∧
      (∀ c p, (c, p) ∈ gChild.edges → c ∈ L → p ∈ L → posIn p L < posIn c L) :=
  claim_C1_sorted_tables gChild (by decide)
    (acyclic_of_sink_parents gChild (by decide) (by decide)) ["b"]
    (by decide)
    (by
      intro n hn
      rw [List.mem_singleton] at hn
      subst hn
      exact ⟨"s.b", by decide⟩)

/-- C4: self-referencing FK edges are dropped at build time; toposort fails
exactly when the requested subset holds a cycle of the induced subgraph, and
the error then lists precisely the undischarged tables, sorted. -/
theorem claim_C4_cycle_error :
    (∀ (cat : Catalog) (incl excl : Option (List String)),
      ∀ e ∈ (buildGraph cat incl excl).edges, e.1 ≠ e.2) ∧
    (∀ (g : Graph) (R : List TName), g.edges.Nodup → (∀ e ∈ g.edges, e.1 ≠ e.2) → R.Nodup →
      ((∃ l, toposort g R = Except.error l) ↔ ∃ t ∈ R, Relation.TransGen (stepIn g R) t t) ∧
      (∀ l, toposort g R = Except.error l →
        l.Sorted strLe ∧ ∀ t, t ∈ l ↔ (t ∈ R ∧ t ∉ kahnOrder g R))) := by
  constructor
  · intro cat incl excl e he
    exact (buildGraph_wf cat incl excl).2 e he
  · intro g R hg hns hR
    constructor
    · constructor
      · rintro ⟨l, hl⟩
        by_contra hacyc
        rw [(toposort_acyclic_spec g hg hns R hR hacyc).1] at hl
        cases hl
      · intro hcyc
        exact ⟨_, toposort_error_of_cycle g hg hns R hR hcyc⟩
    · intro l hl
      unfold toposort at hl
      by_cases hlen : (kahnOrder g R).length = R.length
      · rw [if_pos hlen] at hl
        cases hl
      · rw [if_neg hlen] at hl
        injection hl with hl
        subst hl
        refine ⟨List.sorted_insertionSort strLe _, ?_⟩
        intro t
        rw [List.mem_insertionSort, List.mem_filter]
        simp


/-- C4 witness: the self-referencing catalog builds no self edge, and the
concrete cycle raises, via the theorem. -/
theorem claim_C4_witness :
    (∀ e ∈ (buildGraph catSelfRef none none).edges, e.1 ≠ e.2) ∧
    (∃ l, toposort gCycle ["s.x", "s.y"] = Except.error l) := by
  constructor
  · exact claim_C4_cycle_error.1 catSelfRef none none
  · refine ((claim_C4_cycle_error.2 gCycle ["s.x", "s.y"]
      (by decide) (by decide) (by decide)).1).mpr ?_
    refine ⟨"s.x", by decide, ?_⟩
    exact Relation.TransGen.head
      (show stepIn gCycle ["s.x", "s.y"] "s.x" "s.y" from ⟨by decide, by decide, by decide⟩)
      (Relation.TransGen.single
        (show stepIn gCycle ["s.x", "s.y"] "s.y" "s.x" from ⟨by decide, by decide, by decide⟩))

/-- C5 counterexample: a discovered table with no FK edge at all is absent
from the full order returned for an empty selection. -/
theorem claim_C5_counterexample :
    "s.t" ∈ discoveredTables [⟨"s", [⟨"t", []⟩]⟩] none none ∧
    sorted_tables (buildGraph [⟨"s", [⟨"t", []⟩]⟩] none none) none = Except.ok [] ∧
    ("s.t" : TName) ∉ ([] : List TName) := by
  refine ⟨by decide, by decide, by decide⟩

/-- C5 amended: with no selection, sorted_tables operates over the set of
tables incident to at least one retained FK edge: on an acyclic graph the
returned order holds exactly the edge-incident vertex set, so an FK-isolated
discovered table does not appear. -/
theorem claim_C5_amended (g : Graph) (hg : g.edges.Nodup)
    (hacyc : ∀ t, ¬ Relation.TransGen (stepRel g) t t) :
    ∃ L, sorted_tables g none = Except.ok L ∧ ∀ t, t ∈ L ↔ t ∈ g.nodes := by
  have hns : ∀ e ∈ g.edges, e.1 ≠ e.2 := no_self_of_acyclic g hacyc
  obtain ⟨hCnd, hCmem⟩ := closure_up_spec g hg g.nodes.dedup (List.nodup_dedup _)
  have hded : g.nodes.dedup = g.nodes := (nodes_nodup g).dedup
  have hCeq : ∀ t, t ∈ closure_up g g.nodes.dedup ↔ t ∈ g.nodes := by
    intro t
    rw [hCmem t]
    constructor
    · rintro ⟨s, hs, hrt⟩
      induction hrt with
      | refl => exact List.mem_dedup.mp hs
      | tail _ hstep _ => exact snd_mem_nodes hstep
    · intro ht
      exact ⟨t, List.mem_dedup.mpr ht, Relation.ReflTransGen.refl⟩
  have hacycIn := stepIn_cycle_to_stepRel g (closure_up g g.nodes.dedup) hacyc
  obtain ⟨htopo, _, hLmem, _⟩ :=
    toposort_acyclic_spec g hg hns (closure_up g g.nodes.dedup) hCnd hacycIn
  refine ⟨kahnOrder g (closure_up g g.nodes.dedup), ?_, ?_⟩
  · unfold sorted_tables
    simp only
    rw [htopo]
  · intro t
    rw [hLmem t, hCeq t]

/-- C5 amended witness: the two-table graph, via the theorem. -/
theorem claim_C5_witness :
    ∃ L, sorted_tables gChild none = Except.ok L ∧ ∀ t, t ∈ L ↔ t ∈ gChild.nodes :=
  claim_C5_amended gChild (by decide)
    (acyclic_of_sink_parents gChild (by decide) (by decide))


/-- C3 counterexample: after the prefix [s.a] both s.aa and s.b are eligible
and s.aa is lexicographically smaller, yet the deque-based loop emits s.b
next, so the emitted order differs from the lexicographic-frontier order the
claim describes. -/
theorem claim_C3_counterexample :
    kahnOrder gC3 rC3 = ["s.a", "s.b", "s.aa"] ∧
    toposortLex gC3 rC3 = ["s.a", "s.aa", "s.b"] ∧
    kahnOrder gC3 rC3 ≠ toposortLex gC3 rC3 ∧
    "s.aa" ∈ eligibleAfter gC3 rC3 ["s.a"] ∧
    "s.b" ∈ eligibleAfter gC3 rC3 ["s.a"] ∧
    strLe "s.aa" "s.b" ∧ ("s.aa" : TName) ≠ "s.b" := by
  refine ⟨by decide, by decide, by decide, by decide, by decide, by decide, by decide⟩

/-- C3 amended: only the initial zero-indegree frontier is guaranteed to be
emitted in lexicographic order: the emitted order always starts with the
sorted initial roots, while later-eligible tables join a FIFO queue behind
already queued ones (each parent's children enqueued in sorted order), and
the whole order is a pure function of the graph and subset. -/
theorem claim_C3_amended (g : Graph) (R : List TName) (hg : g.edges.Nodup)
    (hns : ∀ e ∈ g.edges, e.1 ≠ e.2) (hR : R.Nodup) :
    ∃ rest, kahnOrder g R = kahnRoots g R ++ rest :=
  (kahnOrder_master g R hg hns hR).1

/-- C3 amended witness: the counterexample graph, via the theorem. -/
theorem claim_C3_witness :
    ∃ rest, kahnOrder gC3 rC3 = kahnRoots gC3 rC3 ++ rest :=
  claim_C3_amended gC3 rC3 (by decide) (by decide) (by decide)
